import Mathlib

/-!
Verification development for the contact/group-chat resolution engine of
`mac_messages_mcp` (file `mac_messages_mcp/messages.py`).

Strings are modelled as `List Char` (Unicode scalar values), scores as `ℚ`
(the Python code uses floats, but every constant and arithmetic operation in
the matcher is exact at the modelled precision).  Python's `re`-based
character classes are modelled as follows:

* `\s` (`isSpaceChar`) is the exact set of code points Python's `str`
  whitespace semantics use (`re.UNICODE` `\s` = `Py_UNICODE_ISSPACE`);
* the emoji ranges (`isEmojiChar`) are exactly the ranges listed in the
  `emoji_pattern` regex of `clean_name`;
* `\w` is Unicode alphanumeric plus underscore.  Full Unicode alphanumerics
  cannot be enumerated here, so the definitions are parametric in a word
  classifier `iw : Char → Bool`; the instantiation `pyWordAscii` agrees with
  Python's `\w` on every ASCII code point, and all concrete inputs used in
  witnesses and counterexamples are ASCII.
* `str.lower()` is modelled by `toLowerAscii`, exact on ASCII.
-/

/-- The apostrophe character (code point 39), kept by `clean_name`. -/
def apostChar : Char := Char.ofNat 39

/-- Python whitespace (`\s` with Unicode semantics / `str.strip`):
tab..carriage-return, the separators 0x1C-0x1F, space, NEL, NBSP and the
Unicode space code points. -/
def isSpaceChar (c : Char) : Bool :=
  let n := c.toNat
  (9 ≤ n && n ≤ 13) || (28 ≤ n && n ≤ 32) || n == 0x85 || n == 0xa0 ||
  n == 0x1680 || (0x2000 ≤ n && n ≤ 0x200a) || n == 0x2028 || n == 0x2029 ||
  n == 0x202f || n == 0x205f || n == 0x3000

/-- The code-point ranges of the `emoji_pattern` regex in `clean_name`
(`messages.py` lines 273-287). -/
def isEmojiChar (c : Char) : Bool :=
  let n := c.toNat
  (0x1F600 ≤ n && n ≤ 0x1F64F) || (0x1F300 ≤ n && n ≤ 0x1F5FF) ||
  (0x1F680 ≤ n && n ≤ 0x1F6FF) || (0x1F700 ≤ n && n ≤ 0x1F77F) ||
  (0x1F780 ≤ n && n ≤ 0x1F7FF) || (0x1F800 ≤ n && n ≤ 0x1F8FF) ||
  (0x1F900 ≤ n && n ≤ 0x1F9FF) || (0x1FA00 ≤ n && n ≤ 0x1FA6F) ||
  (0x1FA70 ≤ n && n ≤ 0x1FAFF) || (0x2702 ≤ n && n ≤ 0x27B0) ||
  (0x24C2 ≤ n && n ≤ 0x1F251)

/-- Model of Python `str.lower()`, exact on ASCII. -/
def toLowerAscii (c : Char) : Char :=
  if 65 ≤ c.toNat ∧ c.toNat ≤ 90 then Char.ofNat (c.toNat + 32) else c

/-- Lowercase a whole string. -/
def lowerStr (s : List Char) : List Char := s.map toLowerAscii

/-- Python's `\w` restricted to ASCII: alphanumeric or underscore.  This is
exactly what `re`'s `\w` matches on code points below 0x80. -/
def pyWordAscii (c : Char) : Bool := c.isAlphanum || c == '_'

/-- Characters kept by the second substitution of `clean_name`
(`re.sub(r"[^\w\s\x27\-]", "", name)`): word characters, whitespace,
apostrophe and hyphen. -/
def keepChar (iw : Char → Bool) (c : Char) : Bool :=
  iw c || isSpaceChar c || c == apostChar || c == '-'

/-- Drop leading whitespace (the left half of Python `str.strip()`). -/
def trimLeftWS (l : List Char) : List Char := l.dropWhile isSpaceChar

/-- Drop trailing whitespace (the right half of Python `str.strip()`). -/
def trimRightWS : List Char → List Char
  | [] => []
  | c :: rest =>
    match trimRightWS rest with
    | [] => if isSpaceChar c then [] else [c]
    | r => c :: r

/-- Python `str.strip()`. -/
def trimWS (l : List Char) : List Char := trimLeftWS (trimRightWS l)

/-- Model of `re.sub(r"\s+", " ", name)`: every maximal run of whitespace
characters becomes a single space. -/
def collapseWS : List Char → List Char
  | [] => []
  | [c] => if isSpaceChar c then [' '] else [c]
  | c :: d :: rest =>
    if isSpaceChar c then
      if isSpaceChar d then collapseWS (d :: rest)
      else ' ' :: collapseWS (d :: rest)
    else c :: collapseWS (d :: rest)

/-- `clean_name` (`messages.py` lines 268-297): strip the emoji ranges, keep
only word characters / whitespace / apostrophe / hyphen, collapse whitespace
runs to one space, and strip the ends. -/
def clean_name (iw : Char → Bool) (s : List Char) : List Char :=
  trimWS (collapseWS ((s.filter (fun c => !isEmojiChar c)).filter (keepChar iw)))

/-- Accumulator-based splitter; `cur` holds the current word reversed. -/
def splitWSAux (cur : List Char) : List Char → List (List Char)
  | [] => if cur = [] then [] else [cur.reverse]
  | c :: rest =>
    if isSpaceChar c then
      if cur = [] then splitWSAux [] rest else cur.reverse :: splitWSAux [] rest
    else splitWSAux (c :: cur) rest

/-- Python `str.split()` with no argument: split on whitespace runs,
dropping empty pieces. -/
def splitWS (l : List Char) : List (List Char) := splitWSAux [] l

/-- Length of the common run of equal characters at the heads of two lists
(the extent of a matching block starting at these positions). -/
def commonRunLen : List Char → List Char → Nat
  | a :: as, b :: bs => if a = b then commonRunLen as bs + 1 else 0
  | _, _ => 0

/-- One candidate matching block for `findLongestMatch`: start `i` in `a`,
start `j` in `b`, and its length. -/
def runAt (a b : List Char) (i j : Nat) : Nat × Nat × Nat :=
  (i, j, commonRunLen (a.drop i) (b.drop j))

/-- `difflib.SequenceMatcher.find_longest_match` over the whole sequences
(no junk, which is how `fuzzy_match` uses it on short strings): the longest
matching block, ties broken by smallest start in `a`, then smallest start in
`b`. -/
def findLongestMatch (a b : List Char) : Nat × Nat × Nat :=
  ((List.range a.length).flatMap (fun i =>
      (List.range b.length).map (fun j => runAt a b i j))).foldl
    (fun best c => if best.2.2 < c.2.2 then c else best) (0, 0, 0)

theorem commonRunLen_le_left : ∀ a b : List Char, commonRunLen a b ≤ a.length := by
  intro a
  induction a with
  | nil => intro b; simp [commonRunLen]
  | cons x xs ih =>
    intro b
    cases b with
    | nil => simp [commonRunLen]
    | cons y ys =>
      simp only [commonRunLen]
      split
      · simpa using Nat.succ_le_succ (ih ys)
      · simp

theorem commonRunLen_le_right : ∀ a b : List Char, commonRunLen a b ≤ b.length := by
  intro a
  induction a with
  | nil => intro b; simp [commonRunLen]
  | cons x xs ih =>
    intro b
    cases b with
    | nil => simp [commonRunLen]
    | cons y ys =>
      simp only [commonRunLen]
      split
      · simpa using Nat.succ_le_succ (ih ys)
      · simp

/-- Every block reported by `findLongestMatch` lies inside both sequences. -/
theorem findLongestMatch_bounds (a b : List Char) :
    (findLongestMatch a b).1 + (findLongestMatch a b).2.2 ≤ a.length ∧
    (findLongestMatch a b).2.1 + (findLongestMatch a b).2.2 ≤ b.length := by
  unfold findLongestMatch
  have key : ∀ (l : List (Nat × Nat × Nat)) (init : Nat × Nat × Nat),
      (∀ c ∈ l, c.1 + c.2.2 ≤ a.length ∧ c.2.1 + c.2.2 ≤ b.length) →
      (init.1 + init.2.2 ≤ a.length ∧ init.2.1 + init.2.2 ≤ b.length) →
      ((l.foldl (fun best c => if best.2.2 < c.2.2 then c else best) init).1 +
        (l.foldl (fun best c => if best.2.2 < c.2.2 then c else best) init).2.2 ≤ a.length ∧
       (l.foldl (fun best c => if best.2.2 < c.2.2 then c else best) init).2.1 +
        (l.foldl (fun best c => if best.2.2 < c.2.2 then c else best) init).2.2 ≤ b.length) := by
    intro l
    induction l with
    | nil => intro init _ hinit; simpa using hinit
    | cons x xs ih =>
      intro init hl hinit
      simp only [List.foldl_cons]
      apply ih
      · intro c hc; exact hl c (List.mem_cons_of_mem _ hc)
      · by_cases hx : init.2.2 < x.2.2
        · simpa [hx] using hl x (List.mem_cons_self _ _)
        · simpa [hx] using hinit
  apply key
  · intro c hc
    simp only [List.mem_flatMap, List.mem_map, List.mem_range] at hc
    obtain ⟨i, hi, j, hj, rfl⟩ := hc
    constructor
    · have := commonRunLen_le_left (a.drop i) (b.drop j)
      simp only [runAt, List.length_drop] at this ⊢
      omega
    · have := commonRunLen_le_right (a.drop i) (b.drop j)
      simp only [runAt, List.length_drop] at this ⊢
      omega
  · simp

/-- Fuel-indexed Ratcliff/Obershelp matching-block sum: take the longest
matching block, then recurse on the pieces to its left and to its right.
The fuel only serves to make the recursion structural; by
`matchSumF_fuel_irrelevant` any fuel of at least `a.length + b.length` gives
the same value, so `matchSum` below is the genuine recursion (see
`matchSum_eq`). -/
def matchSumF : Nat → List Char → List Char → Nat
  | 0, _, _ => 0
  | fuel + 1, a, b =>
    match findLongestMatch a b with
    | (i, j, k) =>
      if k = 0 then 0
      else matchSumF fuel (a.take i) (b.take j) + k +
        matchSumF fuel (a.drop (i + k)) (b.drop (j + k))

theorem findLongestMatch_nil : findLongestMatch [] [] = (0, 0, 0) := rfl

theorem matchSumF_fuel_irrelevant :
    ∀ (f1 : Nat) (a b : List Char) (f2 : Nat),
    a.length + b.length ≤ f1 → a.length + b.length ≤ f2 →
    matchSumF f1 a b = matchSumF f2 a b := by
  intro f1
  induction f1 with
  | zero =>
    intro a b f2 h1 _
    have ha : a = [] := List.eq_nil_of_length_eq_zero (by omega)
    have hb : b = [] := List.eq_nil_of_length_eq_zero (by omega)
    subst ha
    subst hb
    cases f2 with
    | zero => rfl
    | succ g => simp [matchSumF, findLongestMatch_nil]
  | succ f ih =>
    intro a b f2 h1 h2
    cases f2 with
    | zero =>
      have ha : a = [] := List.eq_nil_of_length_eq_zero (by omega)
      have hb : b = [] := List.eq_nil_of_length_eq_zero (by omega)
      subst ha
      subst hb
      simp [matchSumF, findLongestMatch_nil]
    | succ g =>
      have hbd := findLongestMatch_bounds a b
      simp only [matchSumF]
      rcases hflm : findLongestMatch a b with ⟨i, j, k⟩
      rw [hflm] at hbd
      simp only at hbd
      by_cases hk : k = 0
      · simp [hk]
      · simp only [if_neg hk]
        have hik : i + k ≤ a.length := hbd.1
        have hjk : j + k ≤ b.length := hbd.2
        have htake : (a.take i).length + (b.take j).length ≤ f ∧
            (a.take i).length + (b.take j).length ≤ g := by
          simp only [List.length_take]
          omega
        have hdrop : (a.drop (i + k)).length + (b.drop (j + k)).length ≤ f ∧
            (a.drop (i + k)).length + (b.drop (j + k)).length ≤ g := by
          simp only [List.length_drop]
          omega
        rw [ih (a.take i) (b.take j) g htake.1 htake.2,
          ih (a.drop (i + k)) (b.drop (j + k)) g hdrop.1 hdrop.2]

/-- Total size of all matching blocks found by the Ratcliff/Obershelp
recursion of `difflib.SequenceMatcher.get_matching_blocks`. -/
def matchSum (a b : List Char) : Nat :=
  matchSumF (a.length + b.length) a b

/-- `matchSum` satisfies the intended (non-fuelled) recursion. -/
theorem matchSum_eq (a b : List Char) :
    matchSum a b =
      match findLongestMatch a b with
      | (i, j, k) =>
        if k = 0 then 0
        else matchSum (a.take i) (b.take j) + k +
          matchSum (a.drop (i + k)) (b.drop (j + k)) := by
  have hbd := findLongestMatch_bounds a b
  unfold matchSum
  rcases hflm : findLongestMatch a b with ⟨i, j, k⟩
  rw [hflm] at hbd
  simp only at hbd
  by_cases hab : a.length + b.length = 0
  · have ha : a = [] := List.eq_nil_of_length_eq_zero (by omega)
    have hb : b = [] := List.eq_nil_of_length_eq_zero (by omega)
    subst ha
    subst hb
    rw [findLongestMatch_nil] at hflm
    cases hflm
    simp [matchSumF]
  · rcases hn : a.length + b.length with _ | n
    · omega
    · simp only [hn, matchSumF, hflm]
      by_cases hk : k = 0
      · simp [hk]
      · simp only [if_neg hk]
        rw [matchSumF_fuel_irrelevant n (a.take i) (b.take j)
            ((a.take i).length + (b.take j).length)
            (by simp only [List.length_take]; omega) le_rfl,
          matchSumF_fuel_irrelevant n (a.drop (i + k)) (b.drop (j + k))
            ((a.drop (i + k)).length + (b.drop (j + k)).length)
            (by simp only [List.length_drop]; omega) le_rfl]

/-- `difflib.SequenceMatcher(None, a, b).ratio()`: `2*M / T` where `M` is the
total matched size and `T` the total length; `1` when both are empty. -/
def seqRatio (a b : List Char) : ℚ :=
  if a.length + b.length = 0 then 1
  else mkRat (2 * (matchSum a b : ℤ)) (a.length + b.length)

/-- `seqRatio` is the textbook `2*M / T` (the `mkRat` form is used only so
that the kernel can evaluate it). -/
theorem seqRatio_div_form (a b : List Char) :
    seqRatio a b = if a.length + b.length = 0 then 1
      else (2 * matchSum a b : ℚ) / ((a.length : ℚ) + (b.length : ℚ)) := by
  unfold seqRatio
  split
  · rfl
  · rw [Rat.mkRat_eq_div]
    push_cast
    ring_nf

/-- The per-token scoring rule of `fuzzy_match` (`messages.py` lines
335-351): 0.95 for an exact token match, 0.85 scaled when the token starts
with the query, 0.80 scaled when the query starts with the token, and the
sequence-similarity ratio otherwise. -/
def tokenRule (q t : List Char) : ℚ :=
  if q = t then mkRat 19 20
  else if q.isPrefixOf t then mkRat (17 * q.length) (20 * t.length)
  else if t.isPrefixOf q then mkRat (4 * t.length) (5 * q.length)
  else seqRatio q t

/-- The `mkRat` forms above are exactly the source's float formulas:
`0.95`, `0.85 * (len(query)/len(token))` and `0.80 * (len(token)/len(query))`
(the `mkRat` form is used only so that the kernel can evaluate it). -/
theorem tokenRule_div_form (q t : List Char) :
    tokenRule q t =
      if q = t then 19 / 20
      else if q.isPrefixOf t then (17 / 20) * ((q.length : ℚ) / (t.length : ℚ))
      else if t.isPrefixOf q then (4 / 5) * ((t.length : ℚ) / (q.length : ℚ))
      else seqRatio q t := by
  unfold tokenRule
  split
  · rw [Rat.mkRat_eq_div]
    norm_num
  · split
    · rw [Rat.mkRat_eq_div, div_mul_div_comm]
      push_cast
      ring_nf
    · split
      · rw [Rat.mkRat_eq_div, div_mul_div_comm]
        push_cast
        ring_nf
      · rfl

/-- The score `fuzzy_match` computes for one candidate label, with `q`
already cleaned and lowercased (`messages.py` lines 324-356): exact full
match scores 1; otherwise the token loop accumulates a best score, and the
whole-label ratio is additionally tried when the query contains a space or
the best token score is below the threshold. -/
def candScore (iw : Char → Bool) (threshold : ℚ) (q label : List Char) : ℚ :=
  let cl := lowerStr (clean_name iw label)
  if q = cl then 1
  else
    let best := (splitWS cl).foldl (fun b t =>
      if q = t then max b (mkRat 19 20)
      else if q.isPrefixOf t then max b (mkRat (17 * q.length) (20 * t.length))
      else if t.isPrefixOf q then max b (mkRat (4 * t.length) (5 * q.length))
      else max b (seqRatio q t)) 0
    if (' ' ∈ q) ∨ best < threshold then max best (seqRatio q cl) else best

/-- One iteration of the candidate loop of `fuzzy_match`: an exact full
match is appended with score 1.0 unconditionally; otherwise the candidate is
appended with its score when that score reaches the threshold. -/
def fuzzyEntry (iw : Char → Bool) (threshold : ℚ) (q : List Char)
    (p : List Char × α) : Option (List Char × α × ℚ) :=
  let cl := lowerStr (clean_name iw p.1)
  if q = cl then some (p.1, p.2, 1)
  else
    let s := candScore iw threshold q p.1
    if threshold ≤ s then some (p.1, p.2, s) else none

/-- The unsorted result list of `fuzzy_match`, in candidate order. -/
def fuzzyPrelim (iw : Char → Bool) (q : List Char)
    (cands : List (List Char × α)) (threshold : ℚ) : List (List Char × α × ℚ) :=
  cands.filterMap (fuzzyEntry iw threshold q)

/-- Descending-by-key comparison used to model Python's
`sorted(key=..., reverse=True)`. -/
def scoreRel (key : α → ℚ) : α → α → Prop := fun x y => key y ≤ key x

instance (key : α → ℚ) : DecidableRel (scoreRel key) :=
  fun x y => inferInstanceAs (Decidable (key y ≤ key x))

instance (key : α → ℚ) : IsTotal α (scoreRel key) :=
  ⟨fun a b => (le_total (key b) (key a)).imp id id⟩

instance (key : α → ℚ) : IsTrans α (scoreRel key) :=
  ⟨fun _ _ _ h1 h2 => le_trans h2 h1⟩

/-- Model of Python's `sorted(l, key=key, reverse=True)`: Python's sort is
stable and so is insertion sort, and any two stable descending sorts of the
same list agree. -/
def pySortDesc (key : α → ℚ) (l : List α) : List α :=
  List.insertionSort (scoreRel key) l

/-- `fuzzy_match` (`messages.py` lines 299-362): clean and lowercase the
query, score every candidate, keep exact matches and candidates at or above
the threshold, and sort by score descending (stable). -/
def fuzzy_match (iw : Char → Bool) (query : List Char)
    (cands : List (List Char × α)) (threshold : ℚ := mkRat 3 5) :
    List (List Char × α × ℚ) :=
  let q := lowerStr (clean_name iw query)
  if q = [] then [] else
  pySortDesc (fun e => e.2.2) (fuzzyPrelim iw q cands threshold)

/-- The list of rule values named by the specification for one
query/label pair: 1.0 when the cleaned lowercased strings are equal, else
every per-token rule value, plus the whole-label ratio when the query
contains a space or the best per-token value is below the threshold. -/
def specRuleVals (iw : Char → Bool) (threshold : ℚ) (q label : List Char) : List ℚ :=
  let cl := lowerStr (clean_name iw label)
  if q = cl then [1]
  else
    let tv := (splitWS cl).map (tokenRule q)
    tv ++ (if (' ' ∈ q) ∨ tv.foldr max 0 < threshold then [seqRatio q cl] else [])

/-- The specification's description of the fuzzy score: the maximum over
all applicable rule values. -/
def specScore (iw : Char → Bool) (threshold : ℚ) (q label : List Char) : ℚ :=
  (specRuleVals iw threshold q label).foldr max 0

theorem foldr_max_max (a b : ℚ) (l : List ℚ) :
    l.foldr max (max a b) = max b (l.foldr max a) := by
  induction l with
  | nil => exact max_comm a b
  | cons c l ih => simp only [List.foldr_cons, ih, max_left_comm]

theorem tokenLoop_eq_foldr_max (q : List Char) :
    ∀ (l : List (List Char)) (a : ℚ),
    l.foldl (fun b t =>
      if q = t then max b (mkRat 19 20)
      else if q.isPrefixOf t then max b (mkRat (17 * q.length) (20 * t.length))
      else if t.isPrefixOf q then max b (mkRat (4 * t.length) (5 * q.length))
      else max b (seqRatio q t)) a = (l.map (tokenRule q)).foldr max a := by
  intro l
  induction l with
  | nil => intro a; rfl
  | cons t ts ih =>
    intro a
    have hstep : (if q = t then max a (mkRat 19 20)
      else if q.isPrefixOf t then max a (mkRat (17 * q.length) (20 * t.length))
      else if t.isPrefixOf q then max a (mkRat (4 * t.length) (5 * q.length))
      else max a (seqRatio q t)) = max a (tokenRule q t) := by
      unfold tokenRule
      split
      · rfl
      · split
        · rfl
        · split
          · rfl
          · rfl
    simp only [List.foldl_cons, List.map_cons, List.foldr_cons, hstep, ih,
      foldr_max_max]

/-- C1: for every query and candidate label, the fuzzy match score equals
the maximum over the applicable rules: 1.0 for a cleaned, lowercased
full-string match; else each whitespace token's rule value (0.95 exact,
0.85 and 0.80 scaled prefix rules, otherwise the Ratcliff/Obershelp ratio);
plus the ratio of the query against the whole cleaned label whenever the
query contains a space or the best per-token score is below the
threshold. -/
theorem c1_score_is_max_of_rules (iw : Char → Bool) (threshold : ℚ)
    (q label : List Char) :
    candScore iw threshold q label = specScore iw threshold q label := by
  simp only [candScore, specScore, specRuleVals]
  by_cases h : q = lowerStr (clean_name iw label)
  · simp [h]
  · rw [if_neg h, if_neg h, tokenLoop_eq_foldr_max]
    by_cases hc : (' ' ∈ q) ∨
        ((splitWS (lowerStr (clean_name iw label))).map (tokenRule q)).foldr max 0 < threshold
    · rw [if_pos hc, if_pos hc, List.foldr_append]
      simp only [List.foldr_cons, List.foldr_nil]
      rw [max_comm (seqRatio q (lowerStr (clean_name iw label))) 0, foldr_max_max,
        max_comm]
    · rw [if_neg hc, if_neg hc, List.append_nil]

/-- Lookup in an insertion-ordered association list (Python `dict` read). -/
def dictGet {K γ : Type _} [DecidableEq K] (m : List (K × γ)) (k : K) : Option γ :=
  (m.find? (fun p => decide (p.1 = k))).map (fun p => p.2)

/-- Write to an insertion-ordered association list with Python `dict`
semantics: a new key is appended at the end, an existing key keeps its
insertion position and only its value is replaced. -/
def dictSet {K γ : Type _} [DecidableEq K] (m : List (K × γ)) (k : K) (v : γ) :
    List (K × γ) :=
  if (m.find? (fun p => decide (p.1 = k))).isSome then
    m.map (fun p => if p.1 = k then (k, v) else p)
  else m ++ [(k, v)]

/-- One iteration of the deduplication loops of `find_contact_by_name`
(lines 613-624) and `find_group_chat_by_name` (lines 182-193):
`if key not in seen or score > seen[key]["score"]: seen[key] = build(x)`. -/
def dedupStep {K β γ : Type _} [DecidableEq K] (key : β → K) (scoreOf : γ → ℚ)
    (scoreB : β → ℚ) (build : β → γ) (m : List (K × γ)) (x : β) : List (K × γ) :=
  match dictGet m (key x) with
  | none => dictSet m (key x) (build x)
  | some old => if scoreOf old < scoreB x then dictSet m (key x) (build x) else m

/-- The full deduplication pass: fold the matches through the dict and take
the values in insertion order (`seen.values()`). -/
def pyDedup {K β γ : Type _} [DecidableEq K] (key : β → K) (scoreOf : γ → ℚ)
    (scoreB : β → ℚ) (build : β → γ) (items : List β) : List γ :=
  (items.foldl (dedupStep key scoreOf scoreB build) []).map (fun p => p.2)

section DedupLemmas

variable {K β γ : Type _} [DecidableEq K]
variable (key : β → K) (scoreOf : γ → ℚ) (scoreB : β → ℚ) (build : β → γ)

/-- Invariant of the deduplication fold: the dict `m` has no duplicate keys,
every stored value was built from some processed match with that key, and
every processed match is dominated by the stored value at its key. -/
def GoodAcc (m : List (K × γ)) (P : List β) : Prop :=
  (m.map Prod.fst).Nodup ∧
  (∀ p ∈ m, ∃ x ∈ P, key x = p.1 ∧ p.2 = build x) ∧
  (∀ x ∈ P, ∃ p ∈ m, p.1 = key x ∧ scoreB x ≤ scoreOf p.2)

theorem dictGet_eq_none {m : List (K × γ)} {k : K} :
    dictGet m k = none ↔ ∀ p ∈ m, p.1 ≠ k := by
  unfold dictGet
  rw [Option.map_eq_none', List.find?_eq_none]
  simp only [decide_eq_true_eq]

theorem dictGet_eq_some_of_mem_nodup {m : List (K × γ)} {k : K} {v : γ}
    (hnd : (m.map Prod.fst).Nodup) (hm : (k, v) ∈ m) : dictGet m k = some v := by
  induction m with
  | nil => simp at hm
  | cons p rest ih =>
    simp only [List.map_cons, List.nodup_cons] at hnd
    rcases List.mem_cons.mp hm with h | h
    · subst h
      simp [dictGet, List.find?_cons]
    · have hk : p.1 ≠ k := by
        intro hpk
        exact hnd.1 (hpk ▸ (List.mem_map.mpr ⟨(k, v), h, rfl⟩))
      simpa [dictGet, List.find?_cons, hk] using ih hnd.2 h

theorem GoodAcc_step (m : List (K × γ)) (P : List β) (x : β)
    (hsb : ∀ y, scoreOf (build y) = scoreB y)
    (h : GoodAcc key scoreOf scoreB build m P) :
    GoodAcc key scoreOf scoreB build (dedupStep key scoreOf scoreB build m x) (P ++ [x]) := by
  obtain ⟨hnd, hmem, hdom⟩ := h
  rcases hget : dictGet m (key x) with _ | old
  · have hfind : m.find? (fun p => decide (p.1 = key x)) = none := by
      rw [List.find?_eq_none]
      intro p hp
      simpa using dictGet_eq_none.mp hget p hp
    have hstep : dedupStep key scoreOf scoreB build m x = m ++ [(key x, build x)] := by
      simp [dedupStep, hget, dictSet, hfind]
    rw [hstep]
    have hnot : key x ∉ m.map Prod.fst := by
      intro hk
      obtain ⟨p, hp, hpk⟩ := List.mem_map.mp hk
      exact dictGet_eq_none.mp hget p hp hpk
    refine ⟨?_, ?_, ?_⟩
    · simp only [List.map_append, List.map_cons, List.map_nil]
      exact List.Nodup.append hnd (List.nodup_singleton _)
        (by simpa [List.disjoint_singleton] using hnot)
    · intro p hp
      rcases List.mem_append.mp hp with h | h
      · obtain ⟨y, hy, hky, hpy⟩ := hmem p h
        exact ⟨y, List.mem_append_left _ hy, hky, hpy⟩
      · rcases List.mem_singleton.mp h with rfl
        exact ⟨x, List.mem_append_right _ (List.mem_singleton_self _), rfl, rfl⟩
    · intro y hy
      rcases List.mem_append.mp hy with h | h
      · obtain ⟨p, hp, hpk, hps⟩ := hdom y h
        exact ⟨p, List.mem_append_left _ hp, hpk, hps⟩
      · rcases List.mem_singleton.mp h with rfl
        exact ⟨(key y, build y), List.mem_append_right _ (List.mem_singleton_self _),
          rfl, le_of_eq (hsb y).symm⟩
  · have hsm : ∃ p ∈ m, p.1 = key x ∧ p.2 = old := by
      have hget2 := hget
      simp only [dictGet, Option.map_eq_some'] at hget2
      obtain ⟨p, hp, hp2⟩ := hget2
      exact ⟨p, List.mem_of_find?_eq_some hp,
        by simpa using List.find?_some hp, hp2⟩
    by_cases hlt : scoreOf old < scoreB x
    · have hfind : (m.find? (fun p => decide (p.1 = key x))).isSome = true := by
        obtain ⟨p, hp, hpk, _⟩ := hsm
        rcases hfp : m.find? (fun p => decide (p.1 = key x)) with _ | q
        · rw [List.find?_eq_none] at hfp
          exact absurd (by simpa using hpk) (by simpa using hfp p hp)
        · rw [hfp]
          rfl
      have hstep : dedupStep key scoreOf scoreB build m x =
          m.map (fun p => if p.1 = key x then (key x, build x) else p) := by
        simp only [dedupStep, hget]
        rw [if_pos hlt]
        simp [dictSet, hfind]
      rw [hstep]
      have hkeys : (m.map (fun p => if p.1 = key x then (key x, build x) else p)).map
          Prod.fst = m.map Prod.fst := by
        rw [List.map_map]
        refine List.map_congr_left ?_
        intro p _
        by_cases hpk : p.1 = key x <;> simp [hpk]
      refine ⟨by rw [hkeys]; exact hnd, ?_, ?_⟩
      · intro p hp
        obtain ⟨q, hq, hqp⟩ := List.mem_map.mp hp
        by_cases hqk : q.1 = key x
        · rw [if_pos hqk] at hqp
          exact ⟨x, List.mem_append_right _ (List.mem_singleton_self _),
            by rw [← hqp], by rw [← hqp]⟩
        · rw [if_neg hqk] at hqp
          obtain ⟨y, hy, hky, hpy⟩ := hmem q hq
          exact ⟨y, List.mem_append_left _ hy, by rw [← hqp]; exact hky,
            by rw [← hqp]; exact hpy⟩
      · intro y hy
        rcases List.mem_append.mp hy with h | h
        · obtain ⟨p, hp, hpk, hps⟩ := hdom y h
          by_cases hqk : p.1 = key x
          · refine ⟨(key x, build x), List.mem_map.mpr ⟨p, hp, by simp [hqk]⟩,
              by rw [← hqk]; exact hpk, ?_⟩
            have hpold : p.2 = old := by
              have hdg : dictGet m (key x) = some p.2 :=
                dictGet_eq_some_of_mem_nodup hnd (by rw [← hqk]; exact hp)
              rw [hget] at hdg
              exact (Option.some_inj.mp hdg).symm
            rw [hsb]
            exact le_of_lt (lt_of_le_of_lt (hpold ▸ hps) hlt)
          · exact ⟨p, List.mem_map.mpr ⟨p, hp, by simp [hqk]⟩, hpk, hps⟩
        · rcases List.mem_singleton.mp h with rfl
          obtain ⟨p, hp, hpk, _⟩ := hsm
          exact ⟨(key y, build y), List.mem_map.mpr ⟨p, hp, by simp [hpk]⟩, rfl,
            le_of_eq (hsb y).symm⟩
    · have hstep : dedupStep key scoreOf scoreB build m x = m := by
        simp only [dedupStep, hget]
        rw [if_neg hlt]
      rw [hstep]
      refine ⟨hnd, ?_, ?_⟩
      · intro p hp
        obtain ⟨y, hy, hky, hpy⟩ := hmem p hp
        exact ⟨y, List.mem_append_left _ hy, hky, hpy⟩
      · intro y hy
        rcases List.mem_append.mp hy with h | h
        · obtain ⟨p, hp, hpk, hps⟩ := hdom y h
          exact ⟨p, hp, hpk, hps⟩
        · rcases List.mem_singleton.mp h with rfl
          obtain ⟨p, hp, hpk, hpv⟩ := hsm
          exact ⟨p, hp, hpk, by rw [hpv]; exact le_of_not_lt hlt⟩

theorem GoodAcc_fold (hsb : ∀ y, scoreOf (build y) = scoreB y) :
    ∀ (l : List β) (m : List (K × γ)) (P : List β),
    GoodAcc key scoreOf scoreB build m P →
    GoodAcc key scoreOf scoreB build (l.foldl (dedupStep key scoreOf scoreB build) m) (P ++ l) := by
  intro l
  induction l with
  | nil => intro m P h; simpa using h
  | cons x xs ih =>
    intro m P h
    have h2 := GoodAcc_step key scoreOf scoreB build m P x hsb h
    have h3 := ih _ (P ++ [x]) h2
    simpa [List.append_assoc] using h3

/-- Summary of the deduplication pass: `keyG` reads the resolved address
back out of a built entry. -/
theorem pyDedup_props (keyG : γ → K) (hk : ∀ y, keyG (build y) = key y)
    (hsb : ∀ y, scoreOf (build y) = scoreB y) (items : List β) :
    ((pyDedup key scoreOf scoreB build items).map keyG).Nodup ∧
    (∀ v ∈ pyDedup key scoreOf scoreB build items,
      ∃ x ∈ items, key x = keyG v ∧ v = build x) ∧
    (∀ x ∈ items, ∃ v ∈ pyDedup key scoreOf scoreB build items,
      keyG v = key x ∧ scoreB x ≤ scoreOf v) := by
  have h0 : GoodAcc key scoreOf scoreB build (K := K) (γ := γ) [] [] := by
    refine ⟨List.nodup_nil, ?_, ?_⟩ <;> intro p hp <;> simp at hp
  have h := GoodAcc_fold key scoreOf scoreB build hsb items [] [] h0
  simp only [List.nil_append] at h
  obtain ⟨hnd, hmem, hdom⟩ := h
  have hout : pyDedup key scoreOf scoreB build items =
      (items.foldl (dedupStep key scoreOf scoreB build) []).map (fun p => p.2) := rfl
  set m := items.foldl (dedupStep key scoreOf scoreB build) [] with hm
  have hkeys : (m.map (fun p => p.2)).map keyG = m.map Prod.fst := by
    rw [List.map_map]
    refine List.map_congr_left ?_
    intro p hp
    obtain ⟨x, _, hkx, hpx⟩ := hmem p hp
    simp only [Function.comp_apply, hpx, hk, hkx]
  refine ⟨?_, ?_, ?_⟩
  · rw [hout, hkeys]
    exact hnd
  · intro v hv
    rw [hout] at hv
    obtain ⟨p, hp, hpv⟩ := List.mem_map.mp hv
    obtain ⟨x, hx, hkx, hpx⟩ := hmem p hp
    exact ⟨x, hx, by rw [← hpv, hpx, hk, hkx], by rw [← hpv, hpx]⟩
  · intro x hx
    obtain ⟨p, hp, hpk, hps⟩ := hdom x hx
    refine ⟨p.2, by rw [hout]; exact List.mem_map.mpr ⟨p, hp, rfl⟩, ?_, hps⟩
    obtain ⟨y, _, hky, hpy⟩ := hmem p hp
    rw [hpy, hk, hky, hpk]

end DedupLemmas

theorem pySortDesc_sorted (key : α → ℚ) (l : List α) :
    List.Sorted (scoreRel key) (pySortDesc key l) :=
  List.sorted_insertionSort _ _

theorem pySortDesc_perm (key : α → ℚ) (l : List α) :
    (pySortDesc key l).Perm l :=
  List.perm_insertionSort _ _

theorem filter_orderedInsert_pos (r : α → α → Prop) [DecidableRel r] (p : α → Bool)
    (a : α) (hpa : p a = true) (hskip : ∀ b, ¬ r a b → p b = false) :
    ∀ l : List α, (List.orderedInsert r a l).filter p = a :: l.filter p := by
  intro l
  induction l with
  | nil => simp [List.orderedInsert, hpa]
  | cons b l ih =>
    by_cases hr : r a b
    · simp [List.orderedInsert, hr, hpa]
    · simp only [List.orderedInsert, if_neg hr, List.filter_cons, hskip b hr, ih]
      simp

theorem filter_orderedInsert_neg (r : α → α → Prop) [DecidableRel r] (p : α → Bool)
    (a : α) (hpa : p a = false) :
    ∀ l : List α, (List.orderedInsert r a l).filter p = l.filter p := by
  intro l
  induction l with
  | nil => simp [List.orderedInsert, hpa]
  | cons b l ih =>
    by_cases hr : r a b
    · simp [List.orderedInsert, hr, hpa]
    · simp only [List.orderedInsert, if_neg hr, List.filter_cons, ih]

/-- Stability of the insertion-sort model of Python's stable `sorted`: any
filter that is score-homogeneous is preserved exactly, in order. -/
theorem filter_insertionSort (r : α → α → Prop) [DecidableRel r] (p : α → Bool)
    (hcompat : ∀ a b, p a = true → ¬ r a b → p b = false) :
    ∀ l : List α, (List.insertionSort r l).filter p = l.filter p := by
  intro l
  induction l with
  | nil => rfl
  | cons x l ih =>
    simp only [List.insertionSort]
    by_cases hx : p x
    · rw [filter_orderedInsert_pos r p x hx (fun b hb => hcompat x b hx hb), ih,
        List.filter_cons_of_pos hx]
    · rw [filter_orderedInsert_neg r p x (Bool.of_not_eq_true hx), ih,
        List.filter_cons_of_neg hx]

theorem pySortDesc_stable (key : α → ℚ) (s : ℚ) (l : List α) :
    (pySortDesc key l).filter (fun e => decide (key e = s)) =
      l.filter (fun e => decide (key e = s)) := by
  apply filter_insertionSort
  intro a b ha hb
  rw [decide_eq_true_eq] at ha
  rw [decide_eq_false_iff_not]
  intro hbs
  exact hb (le_of_eq (by rw [ha, hbs]))

/-- One entry of the deduplicated result list of `find_contact_by_name`
(`messages.py` lines 619-624). -/
structure CEntry where
  name : List Char
  phone : List Char
  score : ℚ
  matchedOn : List Char
deriving DecidableEq

instance : Inhabited CEntry := ⟨⟨[], [], 0, []⟩⟩

/-- `contacts.get(phone, default)` on the phone → (full name, nickname)
directory snapshot. -/
def contactsLookup (contacts : List (List Char × List Char × List Char))
    (phone : List Char) : Option (List Char) :=
  (contacts.find? (fun e => decide (e.1 = phone))).map (fun e => e.2.1)

/-- The candidate list of `find_contact_by_name` (lines 599-608): for every
contact the full name is searchable, and the nickname too when present.
A contact is modelled as `(phone, fullName, nickname)`. -/
def contactCandidates (contacts : List (List Char × List Char × List Char)) :
    List (List Char × List Char) :=
  contacts.flatMap (fun e => (e.2.1, e.1) :: (if e.2.2 ≠ [] then [(e.2.2, e.1)] else []))

/-- The record stored for one match in the dedup loop of
`find_contact_by_name`: display name resolved through the directory,
falling back to the matched label. -/
def buildCEntry (contacts : List (List Char × List Char × List Char))
    (m : List Char × List Char × ℚ) : CEntry :=
  { name := (contactsLookup contacts m.2.1).getD m.1
    phone := m.2.1
    score := m.2.2
    matchedOn := m.1 }

/-- The dedup-by-phone pass of `find_contact_by_name` (lines 613-624). -/
def contactDedup (contacts : List (List Char × List Char × List Char))
    (ms : List (List Char × List Char × ℚ)) : List CEntry :=
  pyDedup (fun m => m.2.1) (fun v => v.score) (fun m => m.2.2) (buildCEntry contacts) ms

/-- `find_contact_by_name` (lines 581-628): fuzzy-match against full names
and nicknames, deduplicate by phone keeping the highest score, and sort by
score descending. -/
def find_contact_by_name (iw : Char → Bool)
    (contacts : List (List Char × List Char × List Char)) (name : List Char) :
    List CEntry :=
  pySortDesc (fun v => v.score)
    (contactDedup contacts (fuzzy_match iw name (contactCandidates contacts)))

/-- One row of the group-chat directory snapshot (`get_group_chats`,
lines 85-109); a missing SQL value is modelled as the empty string, which is
also what Python's `or`-chains treat as absent. -/
structure GChat where
  rowid : Nat
  roomName : List Char
  displayName : List Char
  chatIdentifier : List Char
  serviceName : List Char
deriving DecidableEq

/-- `service_name or "iMessage"` (line 105). -/
def gchatService (c : GChat) : List Char :=
  if c.serviceName = [] then "iMessage".data else c.serviceName

/-- `chat_identifier or room_name` (line 106). -/
def gchatChatId (c : GChat) : List Char :=
  if c.chatIdentifier = [] then c.roomName else c.chatIdentifier

/-- The primary AppleScript chat id `"service;+;chatId"` (line 107). -/
def gchatASId (c : GChat) : List Char :=
  gchatService c ++ ";+;".data ++ gchatChatId c

/-- The fallback AppleScript chat id `"any;+;chatId"` (line 108). -/
def gchatASIdAlt (c : GChat) : List Char :=
  "any;+;".data ++ gchatChatId c

/-- `display_name or room_name or chat_identifier` (lines 154 and 187). -/
def gchatDisplay (c : GChat) : List Char :=
  if c.displayName ≠ [] then c.displayName
  else if c.roomName ≠ [] then c.roomName
  else c.chatIdentifier

/-- One entry of the result list of `find_group_chat_by_name`. -/
structure GEntry where
  name : List Char
  roomName : List Char
  chatId : Nat
  applescriptId : List Char
  applescriptIdAlt : List Char
  score : ℚ
deriving DecidableEq

instance : Inhabited GEntry := ⟨⟨[], [], 0, [], [], 0⟩⟩

/-- The result record built for a group chat with a given score. -/
def buildGEntry (c : GChat) (score : ℚ) : GEntry :=
  { name := gchatDisplay c
    roomName := c.roomName
    chatId := c.rowid
    applescriptId := gchatASId c
    applescriptIdAlt := gchatASIdAlt c
    score := score }

/-- The exact-identifier short circuit of `find_group_chat_by_name`
(lines 149-160): the first chat whose room name, chat identifier or
AppleScript id equals the query. -/
def groupExactHit (chats : List GChat) (name : List Char) : Option GChat :=
  chats.find? (fun c =>
    decide (c.roomName = name) || decide (c.chatIdentifier = name) ||
    decide (gchatASId c = name))

/-- The candidate list of `find_group_chat_by_name` (lines 163-176):
display name if present, else room name, else chat identifier. -/
def groupCandidates (chats : List GChat) : List (List Char × GChat) :=
  chats.filterMap (fun c =>
    if c.displayName ≠ [] then some (c.displayName, c)
    else if c.roomName ≠ [] then some (c.roomName, c)
    else if c.chatIdentifier ≠ [] then some (c.chatIdentifier, c)
    else none)

/-- The dedup-by-AppleScript-id pass of `find_group_chat_by_name`
(lines 181-193). -/
def groupDedup (ms : List (List Char × GChat × ℚ)) : List GEntry :=
  pyDedup (fun m => gchatASId m.2.1) (fun v => v.score) (fun m => m.2.2)
    (fun m => buildGEntry m.2.1 m.2.2) ms

/-- `find_group_chat_by_name` (lines 123-197): exact-identifier hit short
circuits with score 1.0; otherwise fuzzy-match the labels, deduplicate by
AppleScript id keeping the highest score, and sort by score descending. -/
def find_group_chat_by_name (iw : Char → Bool) (chats : List GChat)
    (name : List Char) : List GEntry :=
  match groupExactHit chats name with
  | some c => [buildGEntry c 1]
  | none =>
    pySortDesc (fun v => v.score) (groupDedup (fuzzy_match iw name (groupCandidates chats)))

theorem contactDedup_props (iw : Char → Bool)
    (contacts : List (List Char × List Char × List Char)) (name : List Char) :
    ((contactDedup contacts (fuzzy_match iw name (contactCandidates contacts))).map
      (fun v => v.phone)).Nodup ∧
    (∀ v ∈ contactDedup contacts (fuzzy_match iw name (contactCandidates contacts)),
      ∃ m ∈ fuzzy_match iw name (contactCandidates contacts),
        m.2.1 = v.phone ∧ v = buildCEntry contacts m) ∧
    (∀ m ∈ fuzzy_match iw name (contactCandidates contacts),
      ∃ v ∈ contactDedup contacts (fuzzy_match iw name (contactCandidates contacts)),
        v.phone = m.2.1 ∧ m.2.2 ≤ v.score) := by
  have h := pyDedup_props (K := List Char) (β := List Char × List Char × ℚ) (γ := CEntry)
    (fun m => m.2.1) (fun v => v.score) (fun m => m.2.2) (buildCEntry contacts)
    (fun v => v.phone) (fun _ => rfl) (fun _ => rfl)
    (fuzzy_match iw name (contactCandidates contacts))
  exact h

theorem groupDedup_props (iw : Char → Bool) (chats : List GChat) (gname : List Char) :
    ((groupDedup (fuzzy_match iw gname (groupCandidates chats))).map
      (fun v => v.applescriptId)).Nodup ∧
    (∀ v ∈ groupDedup (fuzzy_match iw gname (groupCandidates chats)),
      ∃ m ∈ fuzzy_match iw gname (groupCandidates chats),
        gchatASId m.2.1 = v.applescriptId ∧ v = buildGEntry m.2.1 m.2.2) ∧
    (∀ m ∈ fuzzy_match iw gname (groupCandidates chats),
      ∃ v ∈ groupDedup (fuzzy_match iw gname (groupCandidates chats)),
        v.applescriptId = gchatASId m.2.1 ∧ m.2.2 ≤ v.score) := by
  have h := pyDedup_props (K := List Char) (β := List Char × GChat × ℚ) (γ := GEntry)
    (fun m => gchatASId m.2.1) (fun v => v.score) (fun m => m.2.2)
    (fun m => buildGEntry m.2.1 m.2.2) (fun v => v.applescriptId) (fun _ => rfl)
    (fun _ => rfl) (fuzzy_match iw gname (groupCandidates chats))
  exact h

/-- C4: in every ranked search result (and hence in the lists a
disambiguation session stores), no two entries share the same resolved
address — phone for contacts, AppleScript id for groups — and when several
searchable labels map to the same address only the highest-scoring match
survives: every fuzzy match with that address is dominated by the surviving
entry, which itself comes from one of the matches. -/
theorem c4_dedup_by_address (iw : Char → Bool)
    (contacts : List (List Char × List Char × List Char)) (name : List Char)
    (chats : List GChat) (gname : List Char) :
    (((find_contact_by_name iw contacts name).map (fun v => v.phone)).Nodup ∧
     (∀ v ∈ find_contact_by_name iw contacts name,
       ∃ m ∈ fuzzy_match iw name (contactCandidates contacts),
         m.2.1 = v.phone ∧ v = buildCEntry contacts m) ∧
     (∀ v ∈ find_contact_by_name iw contacts name,
       ∀ m ∈ fuzzy_match iw name (contactCandidates contacts),
         m.2.1 = v.phone → m.2.2 ≤ v.score)) ∧
    (((find_group_chat_by_name iw chats gname).map (fun v => v.applescriptId)).Nodup ∧
     (groupExactHit chats gname = none →
       ∀ v ∈ find_group_chat_by_name iw chats gname,
         ∀ m ∈ fuzzy_match iw gname (groupCandidates chats),
           gchatASId m.2.1 = v.applescriptId → m.2.2 ≤ v.score)) := by
  obtain ⟨hcnd, hcmem, hcdom⟩ := contactDedup_props iw contacts name
  have hcperm : (find_contact_by_name iw contacts name).Perm
      (contactDedup contacts (fuzzy_match iw name (contactCandidates contacts))) :=
    pySortDesc_perm _ _
  refine ⟨⟨?_, ?_, ?_⟩, ?_⟩
  · exact ((hcperm.map (fun v => v.phone)).nodup_iff).mpr hcnd
  · intro v hv
    exact hcmem v (hcperm.mem_iff.mp hv)
  · intro v hv m hm hkey
    have hvd := hcperm.mem_iff.mp hv
    obtain ⟨w, hw, hwk, hws⟩ := hcdom m hm
    have hvw : w = v :=
      List.inj_on_of_nodup_map hcnd hw hvd (by simpa using hwk.trans hkey)
    rw [← hvw]
    exact hws
  · obtain ⟨hgnd, hgmem, hgdom⟩ := groupDedup_props iw chats gname
    rcases hx : groupExactHit chats gname with _ | c
    · have hgperm : (find_group_chat_by_name iw chats gname).Perm
          (groupDedup (fuzzy_match iw gname (groupCandidates chats))) := by
        unfold find_group_chat_by_name
        rw [hx]
        exact pySortDesc_perm _ _
      refine ⟨((hgperm.map (fun v => v.applescriptId)).nodup_iff).mpr hgnd, ?_⟩
      intro _ v hv m hm hkey
      have hvd := hgperm.mem_iff.mp hv
      obtain ⟨w, hw, hwk, hws⟩ := hgdom m hm
      have hvw : w = v :=
        List.inj_on_of_nodup_map hgnd hw hvd (by simpa using hwk.trans hkey)
      rw [← hvw]
      exact hws
    · constructor
      · unfold find_group_chat_by_name
        rw [hx]
        simp
      · intro hnone
        exact absurd hnone (by simp)

/-- C6: ranked lists are sorted by score descending, and entries with equal
scores keep their pre-sort order (stable sort): filtering any fixed score
out of the matcher's output yields exactly the corresponding entries of the
unsorted candidate-order list, and likewise for the deduplicated contact and
group lists. -/
theorem c6_sorted_and_stable {α : Type} (iw : Char → Bool) (query : List Char)
    (cands : List (List Char × α)) (threshold : ℚ)
    (contacts : List (List Char × List Char × List Char)) (name : List Char)
    (chats : List GChat) (gname : List Char) :
    List.Sorted (scoreRel (fun e => e.2.2)) (fuzzy_match iw query cands threshold) ∧
    (∀ s : ℚ, (fuzzy_match iw query cands threshold).filter (fun e => decide (e.2.2 = s)) =
      (if lowerStr (clean_name iw query) = [] then []
       else fuzzyPrelim iw (lowerStr (clean_name iw query)) cands threshold).filter
        (fun e => decide (e.2.2 = s))) ∧
    List.Sorted (scoreRel (fun v => v.score)) (find_contact_by_name iw contacts name) ∧
    (∀ s : ℚ, (find_contact_by_name iw contacts name).filter (fun v => decide (v.score = s)) =
      (contactDedup contacts (fuzzy_match iw name (contactCandidates contacts))).filter
        (fun v => decide (v.score = s))) ∧
    List.Sorted (scoreRel (fun v => v.score)) (find_group_chat_by_name iw chats gname) ∧
    (groupExactHit chats gname = none →
      ∀ s : ℚ, (find_group_chat_by_name iw chats gname).filter (fun v => decide (v.score = s)) =
        (groupDedup (fuzzy_match iw gname (groupCandidates chats))).filter
          (fun v => decide (v.score = s))) := by
  refine ⟨?_, ?_, ?_, ?_, ?_, ?_⟩
  · unfold fuzzy_match
    by_cases hq : lowerStr (clean_name iw query) = []
    · simp [hq]
    · simp only [if_neg hq]
      exact pySortDesc_sorted _ _
  · intro s
    unfold fuzzy_match
    by_cases hq : lowerStr (clean_name iw query) = []
    · simp [hq]
    · simp only [if_neg hq]
      exact pySortDesc_stable _ s _
  · exact pySortDesc_sorted _ _
  · intro s
    exact pySortDesc_stable _ s _
  · unfold find_group_chat_by_name
    rcases hx : groupExactHit chats gname with _ | c
    · exact pySortDesc_sorted _ _
    · simp
  · intro hnone s
    unfold find_group_chat_by_name
    rw [hnone]
    exact pySortDesc_stable _ s _

/-- The specification's description of the matcher contract (`match_many`):
every candidate is returned together with its maximum score, sorted by score
descending — "candidates below the caller-supplied `threshold` (default 0.6)
are excluded by the caller, not by this function".  Deliberately written
from the specification's words, to be compared with `fuzzy_match`. -/
def specMatchMany {α : Type} (iw : Char → Bool) (query : List Char)
    (cands : List (List Char × α)) (threshold : ℚ) : List (List Char × α × ℚ) :=
  let q := lowerStr (clean_name iw query)
  if q = [] then [] else
  pySortDesc (fun e => e.2.2)
    (cands.map (fun p => (p.1, p.2, candScore iw threshold q p.1)))

/-- C5 counterexample: against the query "xq" the candidate "zz" scores 0,
which is below the default threshold 0.6; `fuzzy_match` itself drops it and
returns the empty list, while the specification's function would return the
candidate with its score and leave the filtering to the caller. -/
theorem c5_counterexample :
    fuzzy_match pyWordAscii ("xq".data) [(("zz".data : List Char), (0 : Nat))]
      (mkRat 3 5) = [] ∧
    specMatchMany pyWordAscii ("xq".data) [(("zz".data : List Char), (0 : Nat))]
      (mkRat 3 5) = [("zz".data, 0, 0)] := by decide

/-- C5 (amended): `fuzzy_match` returns the maximum score found for every
candidate it keeps, and candidates whose best score is below the
caller-supplied threshold (default 0.6) are excluded by `fuzzy_match`
itself — not by its caller — except that an exact cleaned full-string match
is always kept (with score 1.0); every candidate at or above the threshold
is kept with its score. -/
theorem c5_amended_function_filters {α : Type} (iw : Char → Bool) (query : List Char)
    (cands : List (List Char × α)) (threshold : ℚ) :
    (∀ nm v s, (nm, v, s) ∈ fuzzy_match iw query cands threshold →
      s = candScore iw threshold (lowerStr (clean_name iw query)) nm ∧
      (threshold ≤ s ∨
        lowerStr (clean_name iw query) = lowerStr (clean_name iw nm))) ∧
    (∀ p ∈ cands, lowerStr (clean_name iw query) ≠ [] →
      threshold ≤ candScore iw threshold (lowerStr (clean_name iw query)) p.1 →
      (p.1, p.2, candScore iw threshold (lowerStr (clean_name iw query)) p.1) ∈
        fuzzy_match iw query cands threshold) := by
  constructor
  · intro nm v s hmem
    unfold fuzzy_match at hmem
    by_cases hq : lowerStr (clean_name iw query) = []
    · rw [if_pos hq] at hmem
      simp at hmem
    · rw [if_neg hq] at hmem
      have hpre := (pySortDesc_perm (fun e => e.2.2)
        (fuzzyPrelim iw (lowerStr (clean_name iw query)) cands threshold)).mem_iff.mp hmem
      obtain ⟨p, hp, hfe⟩ := List.mem_filterMap.mp hpre
      unfold fuzzyEntry at hfe
      by_cases hex : lowerStr (clean_name iw query) = lowerStr (clean_name iw p.1)
      · rw [if_pos hex] at hfe
        have h := Option.some_inj.mp hfe
        have h1 : p.1 = nm := congrArg Prod.fst h
        have hs : (1 : ℚ) = s := by
          have := congrArg (fun t : List Char × α × ℚ => t.2.2) h
          simpa using this
        have hex2 : lowerStr (clean_name iw query) = lowerStr (clean_name iw nm) :=
          h1 ▸ hex
        have hcs : candScore iw threshold (lowerStr (clean_name iw query)) nm = 1 := by
          unfold candScore
          rw [if_pos hex2]
        exact ⟨by rw [hcs, ← hs], Or.inr hex2⟩
      · rw [if_neg hex] at hfe
        by_cases hth : threshold ≤ candScore iw threshold (lowerStr (clean_name iw query)) p.1
        · rw [if_pos hth] at hfe
          have h := Option.some_inj.mp hfe
          have h1 : p.1 = nm := congrArg Prod.fst h
          have h3 : candScore iw threshold (lowerStr (clean_name iw query)) p.1 = s := by
            have := congrArg (fun t : List Char × α × ℚ => t.2.2) h
            simpa using this
          refine ⟨?_, Or.inl (h3 ▸ hth)⟩
          rw [← h1, h3]
        · rw [if_neg hth] at hfe
          exact absurd hfe (by simp)
  · intro p hp hq hth
    unfold fuzzy_match
    rw [if_neg hq]
    have hmem : (p.1, p.2, candScore iw threshold (lowerStr (clean_name iw query)) p.1) ∈
        fuzzyPrelim iw (lowerStr (clean_name iw query)) cands threshold := by
      apply List.mem_filterMap.mpr
      refine ⟨p, hp, ?_⟩
      unfold fuzzyEntry
      by_cases hex : lowerStr (clean_name iw query) = lowerStr (clean_name iw p.1)
      · rw [if_pos hex]
        have hcs : candScore iw threshold (lowerStr (clean_name iw query)) p.1 = 1 := by
          unfold candScore
          rw [if_pos hex]
        rw [hcs]
      · rw [if_neg hex, if_pos hth]
    exact (pySortDesc_perm (fun e => e.2.2) _).mem_iff.mpr hmem

/-- Witness for C5 (amended): with the default threshold, the candidate
"Alexa" scores 17/25 = 0.68 ≥ 0.6 against the query "Alex" and is kept by
`fuzzy_match` with exactly that score. -/
theorem c5_amended_witness :
    ("Alexa".data, (0 : Nat), (mkRat 17 25 : ℚ)) ∈
      fuzzy_match pyWordAscii ("Alex".data) [(("Alexa".data : List Char), (0 : Nat))]
        (mkRat 3 5) := by
  have h := (c5_amended_function_filters pyWordAscii ("Alex".data)
    [(("Alexa".data : List Char), (0 : Nat))] (mkRat 3 5)).2
    ("Alexa".data, 0) (by decide) (by decide) (by decide)
  have hcs : candScore pyWordAscii (mkRat 3 5)
      (lowerStr (clean_name pyWordAscii ("Alex".data))) ("Alexa".data) = mkRat 17 25 := by
    decide
  rw [hcs] at h
  exact h

/-- Whitespace-normal strings: every whitespace character is a plain space
and is not followed by another whitespace character. -/
def wsNormal : List Char → Bool
  | [] => true
  | [c] => !isSpaceChar c || c == ' '
  | c :: d :: rest =>
    (!isSpaceChar c || (c == ' ' && !isSpaceChar d)) && wsNormal (d :: rest)

theorem wsNormal_tail {c : Char} {l : List Char} (h : wsNormal (c :: l) = true) :
    wsNormal l = true := by
  cases l with
  | nil => rfl
  | cons d rest =>
    simp only [wsNormal, Bool.and_eq_true] at h
    exact h.2

theorem wsNormal_cons_nonspace {c : Char} (hc : isSpaceChar c = false)
    (l : List Char) : wsNormal (c :: l) = wsNormal l := by
  cases l with
  | nil => simp [wsNormal, hc]
  | cons d rest => simp [wsNormal, hc]

theorem collapseWS_cons_nonspace {d : Char} (hd : isSpaceChar d = false)
    (rest : List Char) : collapseWS (d :: rest) = d :: collapseWS rest := by
  cases rest with
  | nil => simp [collapseWS, hd]
  | cons e rest2 => simp [collapseWS, hd]

theorem collapseWS_mem :
    ∀ l : List Char, ∀ c ∈ collapseWS l,
      c = ' ' ∨ (c ∈ l ∧ isSpaceChar c = false) := by
  intro l
  induction l with
  | nil => simp [collapseWS]
  | cons a rest ih =>
    cases rest with
    | nil =>
      intro c hc
      simp only [collapseWS] at hc
      by_cases ha : isSpaceChar a
      · rw [if_pos ha] at hc
        rcases List.mem_singleton.mp hc with rfl
        exact Or.inl rfl
      · rw [if_neg ha] at hc
        rcases List.mem_singleton.mp hc with rfl
        exact Or.inr ⟨List.mem_singleton_self _, Bool.of_not_eq_true ha⟩
    | cons d rest2 =>
      intro c hc
      simp only [collapseWS] at hc
      by_cases ha : isSpaceChar a
      · rw [if_pos ha] at hc
        by_cases hd : isSpaceChar d
        · rw [if_pos hd] at hc
          rcases ih c hc with h | ⟨hm, hs⟩
          · exact Or.inl h
          · exact Or.inr ⟨List.mem_cons_of_mem _ hm, hs⟩
        · rw [if_neg hd] at hc
          rcases List.mem_cons.mp hc with rfl | hc2
          · exact Or.inl rfl
          · rcases ih c hc2 with h | ⟨hm, hs⟩
            · exact Or.inl h
            · exact Or.inr ⟨List.mem_cons_of_mem _ hm, hs⟩
      · rw [if_neg ha] at hc
        rcases List.mem_cons.mp hc with rfl | hc2
        · exact Or.inr ⟨List.mem_cons_self _ _, Bool.of_not_eq_true ha⟩
        · rcases ih c hc2 with h | ⟨hm, hs⟩
          · exact Or.inl h
          · exact Or.inr ⟨List.mem_cons_of_mem _ hm, hs⟩

theorem wsNormal_collapseWS : ∀ l : List Char, wsNormal (collapseWS l) = true := by
  intro l
  induction l with
  | nil => rfl
  | cons a rest ih =>
    cases rest with
    | nil =>
      simp only [collapseWS]
      by_cases ha : isSpaceChar a <;> simp [ha, wsNormal]
    | cons d rest2 =>
      simp only [collapseWS]
      by_cases ha : isSpaceChar a
      · rw [if_pos ha]
        by_cases hd : isSpaceChar d
        · rw [if_pos hd]
          exact ih
        · rw [if_neg hd]
          rw [collapseWS_cons_nonspace (Bool.of_not_eq_true hd) rest2] at ih ⊢
          simp only [wsNormal, Bool.and_eq_true]
          exact ⟨by simp [hd], ih⟩
      · rw [if_neg ha]
        rw [wsNormal_cons_nonspace (Bool.of_not_eq_true ha)]
        exact ih

theorem wsNormal_trimLeftWS {l : List Char} (h : wsNormal l = true) :
    wsNormal (trimLeftWS l) = true := by
  induction l with
  | nil => exact h
  | cons c rest ih =>
    by_cases hc : isSpaceChar c
    · rw [trimLeftWS, List.dropWhile_cons_of_pos hc]
      exact ih (wsNormal_tail h)
    · rw [trimLeftWS, List.dropWhile_cons_of_neg hc]
      exact h

theorem trimRightWS_shape (x : Char) (rest : List Char) :
    trimRightWS (x :: rest) = [] ∨ ∃ t, trimRightWS (x :: rest) = x :: t := by
  simp only [trimRightWS]
  cases trimRightWS rest with
  | nil =>
    by_cases hx : isSpaceChar x
    · simp [hx]
    · simp [hx]
  | cons e t => exact Or.inr ⟨e :: t, rfl⟩

theorem wsNormal_trimRightWS : ∀ l : List Char, wsNormal l = true →
    wsNormal (trimRightWS l) = true := by
  intro l
  induction l with
  | nil => intro h; exact h
  | cons c rest ih =>
    intro h
    have hsingle : isSpaceChar c = true → c = ' ' := by
      intro hc
      cases rest with
      | nil =>
        simp only [wsNormal, hc, Bool.not_true, Bool.false_or, beq_iff_eq] at h
        exact h
      | cons d rest2 =>
        simp only [wsNormal, hc, Bool.not_true, Bool.false_or, Bool.and_eq_true,
          beq_iff_eq] at h
        exact h.1.1
    simp only [trimRightWS]
    cases htr : trimRightWS rest with
    | nil =>
      by_cases hc : isSpaceChar c
      · simp [hc, wsNormal]
      · simp [hc, wsNormal]
    | cons e t =>
      have hrest : wsNormal (e :: t) = true := htr ▸ ih (wsNormal_tail h)
      cases rest with
      | nil => simp [trimRightWS] at htr
      | cons d rest2 =>
        have hhead : e = d := by
          rcases trimRightWS_shape d rest2 with hnil | ⟨t2, ht2⟩
          · rw [hnil] at htr
            cases htr
          · rw [ht2] at htr
            exact (List.cons.injEq .. ▸ htr).1.symm
        subst hhead
        simp only [wsNormal, Bool.and_eq_true] at h ⊢
        exact ⟨h.1, hrest⟩

theorem collapseWS_eq_self : ∀ l : List Char, wsNormal l = true →
    collapseWS l = l := by
  intro l
  induction l with
  | nil => intro _; rfl
  | cons c rest ih =>
    intro h
    cases rest with
    | nil =>
      simp only [wsNormal] at h
      simp only [collapseWS]
      by_cases hc : isSpaceChar c
      · simp only [hc, Bool.not_true, Bool.false_or, beq_iff_eq] at h
        rw [if_pos hc, h]
      · rw [if_neg hc]
    | cons d rest2 =>
      simp only [wsNormal, Bool.and_eq_true] at h
      simp only [collapseWS]
      by_cases hc : isSpaceChar c
      · simp only [hc, Bool.not_true, Bool.false_or, Bool.and_eq_true, beq_iff_eq] at h
        obtain ⟨⟨hc1, hd⟩, h2⟩ := h
        have hd2 : isSpaceChar d = false := by simpa using hd
        rw [if_pos hc, if_neg (by simp [hd2]), hc1]
        congr 1
        exact ih h2
      · rw [if_neg hc]
        congr 1
        exact ih h.2

theorem trimLeftWS_idem (l : List Char) : trimLeftWS (trimLeftWS l) = trimLeftWS l := by
  unfold trimLeftWS
  induction l with
  | nil => rfl
  | cons c rest ih =>
    by_cases hc : isSpaceChar c
    · rw [List.dropWhile_cons_of_pos hc]
      exact ih
    · rw [List.dropWhile_cons_of_neg hc, List.dropWhile_cons_of_neg hc]

theorem trimRightWS_getLast_not_space :
    ∀ (l : List Char) (c : Char), (trimRightWS l).getLast? = some c →
      isSpaceChar c = false := by
  intro l
  induction l with
  | nil => intro c h; cases h
  | cons a rest ih =>
    intro c h
    simp only [trimRightWS] at h
    cases htr : trimRightWS rest with
    | nil =>
      rw [htr] at h
      by_cases ha : isSpaceChar a
      · rw [if_pos ha] at h
        cases h
      · rw [if_neg ha] at h
        simp only [List.getLast?_singleton, Option.some_inj] at h
        rw [← h]
        exact Bool.of_not_eq_true ha
    | cons e t =>
      rw [htr, List.getLast?_cons_cons] at h
      exact ih c (htr ▸ h)

theorem trimRightWS_eq_self :
    ∀ l : List Char, (∀ c, l.getLast? = some c → isSpaceChar c = false) →
      trimRightWS l = l := by
  intro l
  induction l with
  | nil => intro _; rfl
  | cons a rest ih =>
    intro h
    cases rest with
    | nil =>
      have ha : isSpaceChar a = false := h a rfl
      simp [trimRightWS, ha]
    | cons d r2 =>
      have h2 : trimRightWS (d :: r2) = d :: r2 := by
        apply ih
        intro c hc
        exact h c (by rw [List.getLast?_cons_cons]; exact hc)
      simp only [trimRightWS] at h2 ⊢
      rw [h2]

theorem trimRightWS_idem (l : List Char) :
    trimRightWS (trimRightWS l) = trimRightWS l :=
  trimRightWS_eq_self (trimRightWS l) (trimRightWS_getLast_not_space l)

theorem trimRight_trimLeft_comm :
    ∀ l : List Char, trimRightWS (trimLeftWS l) = trimLeftWS (trimRightWS l) := by
  intro l
  induction l with
  | nil => rfl
  | cons c rest ih =>
    by_cases hc : isSpaceChar c
    · have h1 : trimLeftWS (c :: rest) = trimLeftWS rest := by
        unfold trimLeftWS
        exact List.dropWhile_cons_of_pos hc
      rw [h1, ih]
      cases htr : trimRightWS rest with
      | nil =>
        have h2 : trimRightWS (c :: rest) = [] := by
          simp only [trimRightWS, htr, if_pos hc]
        rw [h2]
      | cons e t =>
        have h2 : trimRightWS (c :: rest) = c :: e :: t := by
          simp only [trimRightWS, htr]
        rw [h2]
        have h3 : trimLeftWS (c :: e :: t) = trimLeftWS (e :: t) := by
          unfold trimLeftWS
          exact List.dropWhile_cons_of_pos hc
        rw [h3]
    · have h1 : trimLeftWS (c :: rest) = c :: rest := by
        unfold trimLeftWS
        exact List.dropWhile_cons_of_neg hc
      rw [h1]
      cases htr : trimRightWS rest with
      | nil =>
        have h2 : trimRightWS (c :: rest) = [c] := by
          simp only [trimRightWS, htr, if_neg hc]
        rw [h2]
        unfold trimLeftWS
        rw [List.dropWhile_cons_of_neg hc]
      | cons e t =>
        have h2 : trimRightWS (c :: rest) = c :: e :: t := by
          simp only [trimRightWS, htr]
        rw [h2]
        unfold trimLeftWS
        rw [List.dropWhile_cons_of_neg hc]

theorem trimWS_idem (l : List Char) : trimWS (trimWS l) = trimWS l := by
  unfold trimWS
  rw [trimRight_trimLeft_comm, trimRightWS_idem]
  exact trimLeftWS_idem _

theorem trimRightWS_sublist : ∀ l : List Char, (trimRightWS l).Sublist l := by
  intro l
  induction l with
  | nil => exact List.Sublist.refl _
  | cons c rest ih =>
    cases htr : trimRightWS rest with
    | nil =>
      by_cases hc : isSpaceChar c
      · have h : trimRightWS (c :: rest) = [] := by
          simp only [trimRightWS, htr, if_pos hc]
        rw [h]
        exact List.nil_sublist _
      · have h : trimRightWS (c :: rest) = [c] := by
          simp only [trimRightWS, htr, if_neg hc]
        rw [h]
        exact (List.nil_sublist rest).cons₂ c
    | cons e t =>
      have h : trimRightWS (c :: rest) = c :: e :: t := by
        simp only [trimRightWS, htr]
      rw [h, ← htr]
      exact ih.cons₂ c

theorem mem_trimWS {c : Char} {l : List Char} (h : c ∈ trimWS l) : c ∈ l := by
  unfold trimWS trimLeftWS at h
  exact (trimRightWS_sublist l).subset ((List.dropWhile_sublist _).subset h)

theorem head_dropWhile_false {p : Char → Bool} :
    ∀ {l : List Char} {c : Char}, (l.dropWhile p).head? = some c → p c = false := by
  intro l
  induction l with
  | nil => intro c h; cases h
  | cons a rest ih =>
    intro c h
    by_cases ha : p a
    · rw [List.dropWhile_cons_of_pos ha] at h
      exact ih h
    · rw [List.dropWhile_cons_of_neg ha] at h
      cases h
      exact Bool.of_not_eq_true ha

theorem getLast_trimWS_not_space (l : List Char) (c : Char)
    (h : (trimWS l).getLast? = some c) : isSpaceChar c = false := by
  unfold trimWS trimLeftWS at h
  set w := trimRightWS l with hw
  have hne : w.dropWhile isSpaceChar ≠ [] := by
    intro hemp
    rw [hemp] at h
    cases h
  have hlast : w.getLast? = some c := by
    conv_lhs => rw [(List.takeWhile_append_dropWhile (p := isSpaceChar) (l := w)).symm]
    rw [List.getLast?_append_of_ne_nil _ hne]
    exact h
  exact trimRightWS_getLast_not_space l c hlast

theorem clean_name_chars (iw : Char → Bool) (s : List Char) :
    ∀ c ∈ clean_name iw s,
      isEmojiChar c = false ∧
      (c = ' ' ∨ (isSpaceChar c = false ∧
        (iw c = true ∨ c = apostChar ∨ c = '-'))) := by
  intro c hc
  have hcol : c ∈ collapseWS ((s.filter (fun c => !isEmojiChar c)).filter (keepChar iw)) :=
    mem_trimWS hc
  rcases collapseWS_mem _ c hcol with rfl | ⟨hm, hs⟩
  · exact ⟨by decide, Or.inl rfl⟩
  · have h1 := List.mem_filter.mp hm
    have h2 := List.mem_filter.mp h1.1
    refine ⟨by simpa using h2.2, Or.inr ⟨hs, ?_⟩⟩
    have hk := h1.2
    simp only [keepChar, Bool.or_eq_true, beq_iff_eq] at hk
    rcases hk with ((hw | hsp) | hap) | hh
    · exact Or.inl hw
    · rw [hs] at hsp
      cases hsp
    · exact Or.inr (Or.inl hap)
    · exact Or.inr (Or.inr hh)

theorem wsNormal_clean_name (iw : Char → Bool) (s : List Char) :
    wsNormal (clean_name iw s) = true :=
  wsNormal_trimLeftWS (wsNormal_trimRightWS _ (wsNormal_collapseWS _))

theorem wsNormal_chain {l : List Char} (h : wsNormal l = true) :
    List.Chain' (fun a b => ¬(a = ' ' ∧ b = ' ')) l := by
  induction l with
  | nil => exact List.chain'_nil
  | cons c rest ih =>
    cases rest with
    | nil => exact List.chain'_singleton c
    | cons d rest2 =>
      simp only [wsNormal, Bool.and_eq_true] at h
      refine List.Chain'.cons ?_ (ih h.2)
      rintro ⟨rfl, rfl⟩
      have := h.1
      simp [isSpaceChar] at this

/-- C8 (amended): `clean_name` removes the pictographic/symbol ranges and
every character that is not a word character (letter, digit or — unlike the
claim's wording — the underscore, since Python's `\w` matches it), an
apostrophe, a hyphen or whitespace; whitespace runs become one space, the
ends are trimmed, and the function is idempotent. -/
theorem c8_amended_clean_name (iw : Char → Bool) (s : List Char) :
    (∀ c ∈ clean_name iw s,
      isEmojiChar c = false ∧
      (c = ' ' ∨ (isSpaceChar c = false ∧
        (iw c = true ∨ c = apostChar ∨ c = '-')))) ∧
    List.Chain' (fun a b => ¬(a = ' ' ∧ b = ' ')) (clean_name iw s) ∧
    (clean_name iw s).head? ≠ some ' ' ∧
    (clean_name iw s).getLast? ≠ some ' ' ∧
    clean_name iw (clean_name iw s) = clean_name iw s := by
  refine ⟨clean_name_chars iw s, wsNormal_chain (wsNormal_clean_name iw s), ?_, ?_, ?_⟩
  · intro h
    have := head_dropWhile_false (p := isSpaceChar) h
    simp [isSpaceChar] at this
  · intro h
    have := getLast_trimWS_not_space _ _ h
    simp [isSpaceChar] at this
  · have hA : (clean_name iw s).filter (fun c => !isEmojiChar c) = clean_name iw s := by
      rw [List.filter_eq_self]
      intro c hc
      simp [(clean_name_chars iw s c hc).1]
    have hB : (clean_name iw s).filter (keepChar iw) = clean_name iw s := by
      rw [List.filter_eq_self]
      intro c hc
      rcases (clean_name_chars iw s c hc).2 with rfl | ⟨_, hk⟩
      · simp [keepChar, isSpaceChar]
      · rcases hk with hw | hap | hh
        · simp [keepChar, hw]
        · simp [keepChar, hap]
        · simp [keepChar, hh]
    have hC : collapseWS (clean_name iw s) = clean_name iw s :=
      collapseWS_eq_self _ (wsNormal_clean_name iw s)
    show trimWS (collapseWS (((clean_name iw s).filter (fun c => !isEmojiChar c)).filter
      (keepChar iw))) = clean_name iw s
    rw [hA, hB, hC]
    show trimWS (trimWS (collapseWS _)) = _
    rw [trimWS_idem]
    exact rfl

/-- The specification's description of `cleanLabel`, written from its words:
keep only letters, digits, apostrophe, hyphen and whitespace (no
underscore), after removing the pictographic ranges; then collapse
whitespace and trim. -/
def cleanLabelSpecStated (s : List Char) : List Char :=
  trimWS (collapseWS ((s.filter (fun c => !isEmojiChar c)).filter
    (fun c => c.isAlphanum || isSpaceChar c || c == apostChar || c == '-')))

/-- C8 counterexample: on the input "_" the code's `clean_name` keeps the
underscore (Python `\w` matches it), while the claim's character set
(letters, digits, apostrophe, hyphen, whitespace) would delete it. -/
theorem c8_counterexample :
    clean_name pyWordAscii ("_".data) = "_".data ∧
    cleanLabelSpecStated ("_".data) = [] := by decide

/-- Witness for C8 (amended): the underscore survives in the cleaned form
of "a  b_!", its class facts hold, and cleaning is idempotent there. -/
theorem c8_amended_witness :
    (isEmojiChar '_' = false ∧
      ('_' = ' ' ∨ (isSpaceChar '_' = false ∧
        (pyWordAscii '_' = true ∨ '_' = apostChar ∨ '_' = '-')))) ∧
    clean_name pyWordAscii (clean_name pyWordAscii ("a  b_!".data)) =
      clean_name pyWordAscii ("a  b_!".data) :=
  ⟨(c8_amended_clean_name pyWordAscii ("a  b_!".data)).1 '_' (by decide),
   (c8_amended_clean_name pyWordAscii ("a  b_!".data)).2.2.2.2⟩

/-- Witness for C4: on a directory where "Alex"'s full name and nickname
both match, the result has distinct phones and the surviving score 1.0
dominates the duplicate nickname match 17/25. -/
theorem c4_witness :
    ((find_contact_by_name pyWordAscii
        [("5551".data, "Alex".data, "Alexa".data), ("5552".data, "Alexa".data, [])]
        ("Alex".data)).map (fun v => v.phone)).Nodup ∧
    (mkRat 17 25 : ℚ) ≤ (1 : ℚ) :=
  ⟨(c4_dedup_by_address pyWordAscii
      [("5551".data, "Alex".data, "Alexa".data), ("5552".data, "Alexa".data, [])]
      ("Alex".data) [] []).1.1,
   (c4_dedup_by_address pyWordAscii
      [("5551".data, "Alex".data, "Alexa".data), ("5552".data, "Alexa".data, [])]
      ("Alex".data) [] []).1.2.2
     ⟨"Alex".data, "5551".data, 1, "Alex".data⟩ (by decide)
     ("Alexa".data, "5551".data, mkRat 17 25) (by decide) (by decide)⟩

/-- Witness for C6: the stability equation holds for the empty group
directory once the exact-hit hypothesis is discharged. -/
theorem c6_witness :
    (find_group_chat_by_name pyWordAscii ([] : List GChat) ("g".data)).filter
        (fun v => decide (v.score = 1)) =
      (groupDedup (fuzzy_match pyWordAscii ("g".data) (groupCandidates []))).filter
        (fun v => decide (v.score = 1)) :=
  (c6_sorted_and_stable pyWordAscii ("Alex".data)
    [(("Alexa".data : List Char), (0 : Nat))] (mkRat 3 5) [] ("x".data) []
    ("g".data)).2.2.2.2.2 (by decide) 1

/-- `normalize_phone_number` (`messages.py` lines 255-261): keep digits
only; empty input yields empty output. -/
def normalize_phone_number (phone : List Char) : List Char :=
  phone.filter Char.isDigit

/-- The digit-string value accepted by Python's `int()` (sign handled by
`parsePyInt`); underscore separators are not modelled, no selector uses
them. -/
def digitsVal (l : List Char) : Option Nat :=
  if l ≠ [] ∧ l.all Char.isDigit then
    some (l.foldl (fun a c => a * 10 + (c.toNat - 48)) 0)
  else none

/-- Python `int(s)` on an already-stripped string: optional sign, then
digits. -/
def parsePyInt : List Char → Option Int
  | '+' :: ds => (digitsVal ds).map (fun v => (v : Int))
  | '-' :: ds => (digitsVal ds).map (fun v => -(v : Int))
  | ds => (digitsVal ds).map (fun v => (v : Int))

/-- `recipient.split(":", 1)[1]`: everything after the first colon, `none`
when there is no colon (in which case the code reports an invalid format). -/
def afterFirstColon : List Char → Option (List Char)
  | [] => none
  | c :: rest => if c = ':' then some rest else afterFirstColon rest

/-- The selector prefix "group:". -/
def groupPrefix : List Char := "group:".data

/-- The selector prefix "contact:". -/
def contactPrefix : List Char := "contact:".data

/-- One slot of disambiguation state: the `recent_matches` and
`recent_group_matches` attributes attached to `send_message`
(lines 796-798) or to `get_recent_messages`. -/
structure Session where
  contacts : List CEntry
  groups : List GEntry
deriving DecidableEq

instance : Inhabited Session := ⟨⟨[], []⟩⟩

/-- The session value after both lists are cleared. -/
def emptySession : Session := ⟨[], []⟩

/-- The distinct return points of `send_message`, one constructor per
return-site class of the Python function. -/
inductive SMResult
  | errGroupSelContactMode
  | errContactSelGroupMode
  | errInvalidGroupFormat
  | errGroupSelNotNumber
  | errGroupSelNotPositive
  | errNoRecentGroups
  | errGroupSelOutOfRange (bound : Nat)
  | groupSelSent (g : GEntry)
  | groupSelFailed (g : GEntry)
  | errInvalidContactFormat
  | errContactSelNotNumber
  | errContactSelNotPositive
  | errNoRecentContacts
  | errContactSelOutOfRange (bound : Nat)
  | contactSelSent (c : CEntry)
  | contactSelFailed (c : CEntry)
  | errEmailGroupMode
  | errPhoneGroupMode
  | directSend (addr : List Char) (ok : Bool)
  | errGroupDirectory
  | notFound
  | singleGroupSent (g : GEntry) (ok : Bool)
  | singleContactSent (c : CEntry) (ok : Bool)
  | ambiguousBoth (gs : List GEntry) (cs : List CEntry)
  | ambiguousGroups (gs : List GEntry)
  | ambiguousContacts (cs : List CEntry)
deriving DecidableEq

/-- The group-send fallback chain (lines 677-679 and 760-762): try the
primary AppleScript id; if that fails and an alternate id exists, try it. -/
def trySendGroup (sendOk : List Char → Bool) (g : GEntry) : Bool :=
  if sendOk g.applescriptId then true
  else if g.applescriptIdAlt ≠ [] then sendOk g.applescriptIdAlt
  else false

/-- The outcome-combination tail of `send_message` (lines 747-793), taking
the two ranked match lists.  Single-match branches clear the session before
sending; the ambiguous branches store the full lists and display capped
prefixes (5 per list when both are non-empty, 10 otherwise).  The
list-indexing in the single branches uses `getD`, whose default is
unreachable because the branch condition pins the length. -/
def combineMatches (gm : List GEntry) (cm : List CEntry)
    (sendOk : List Char → Bool) (sess : Session) : SMResult × Session :=
  if gm = [] ∧ cm = [] then (.notFound, sess)
  else if gm ≠ [] ∧ cm = [] ∧ gm.length = 1 then
    let g := gm.getD 0 default
    (.singleGroupSent g (trySendGroup sendOk g), emptySession)
  else if cm ≠ [] ∧ gm = [] ∧ cm.length = 1 then
    let c := cm.getD 0 default
    (.singleContactSent c (sendOk c.phone), emptySession)
  else
    let sess2 : Session := ⟨cm, gm⟩
    if gm ≠ [] ∧ cm ≠ [] then (.ambiguousBoth (gm.take 5) (cm.take 5), sess2)
    else if gm ≠ [] then (.ambiguousGroups (gm.take 10), sess2)
    else (.ambiguousContacts (cm.take 10), sess2)

/-- `send_message` (lines 630-793).  The transport is abstracted by
`sendOk : address → Bool` (success of `_send_message_to_recipient`);
`groupDirErr` models `get_group_chats` returning its error marker; the
directories are snapshots.  Selector index loads use `getD`, whose default
is unreachable because the preceding bound check returns first. -/
def send_message (recipient : List Char) (groupChat : Option Bool) (sess : Session)
    (chats : List GChat) (groupDirErr : Bool)
    (contacts : List (List Char × List Char × List Char))
    (sendOk : List Char → Bool) : SMResult × Session :=
  let r := trimWS recipient
  if groupPrefix.isPrefixOf (lowerStr r) then
    if groupChat = some false then (.errGroupSelContactMode, sess)
    else
      match afterFirstColon r with
      | none => (.errInvalidGroupFormat, sess)
      | some rest =>
        if trimWS rest = [] then (.errInvalidGroupFormat, sess)
        else
          match parsePyInt (trimWS rest) with
          | none => (.errGroupSelNotNumber, sess)
          | some n =>
            if n - 1 < 0 then (.errGroupSelNotPositive, sess)
            else if sess.groups = [] then (.errNoRecentGroups, sess)
            else if sess.groups.length ≤ (n - 1).toNat then
              (.errGroupSelOutOfRange sess.groups.length, sess)
            else
              let g := sess.groups.getD (n - 1).toNat default
              if trySendGroup sendOk g then (.groupSelSent g, emptySession)
              else (.groupSelFailed g, sess)
  else if contactPrefix.isPrefixOf (lowerStr r) then
    if groupChat = some true then (.errContactSelGroupMode, sess)
    else
      match afterFirstColon r with
      | none => (.errInvalidContactFormat, sess)
      | some rest =>
        if trimWS rest = [] then (.errInvalidContactFormat, sess)
        else
          match parsePyInt (trimWS rest) with
          | none => (.errContactSelNotNumber, sess)
          | some n =>
            if n - 1 < 0 then (.errContactSelNotPositive, sess)
            else if sess.contacts = [] then (.errNoRecentContacts, sess)
            else if sess.contacts.length ≤ (n - 1).toNat then
              (.errContactSelOutOfRange sess.contacts.length, sess)
            else
              let c := sess.contacts.getD (n - 1).toNat default
              if sendOk c.phone then (.contactSelSent c, emptySession)
              else (.contactSelFailed c, sess)
  else if r.contains '@' && r.contains '.' then
    if groupChat = some true then (.errEmailGroupMode, sess)
    else (.directSend r (sendOk r), sess)
  else if r.all (fun c => c.isDigit || c == '+' || c == '-' || c == ' ' ||
      c == '(' || c == ')') then
    if groupChat = some true then (.errPhoneGroupMode, sess)
    else
      let num := r.filter Char.isDigit
      (.directSend num (sendOk num), sess)
  else if groupChat = some true && groupDirErr then (.errGroupDirectory, sess)
  else
    let gm := if groupChat = some false then []
      else find_group_chat_by_name pyWordAscii chats r
    let cm := if groupChat = some true then []
      else find_contact_by_name pyWordAscii contacts r
    combineMatches gm cm sendOk sess

/-- The return points of the selector-resolution prefix of
`get_recent_messages` (lines 943-1003). -/
inductive GRMResult
  | errInvalidGroupFormat
  | errGroupSelNotNumber
  | errGroupSelNotPositive
  | errNoRecentGroups
  | errGroupSelOutOfRange (bound : Nat)
  | roomFilter (room : List Char)
  | errInvalidContactFormat
  | errContactSelNotNumber
  | errContactSelNotPositive
  | errNoRecentContacts
  | errContactSelOutOfRange (bound : Nat)
  | phoneFilter (phone : List Char)
  | notSelector
deriving DecidableEq

/-- The selector handling of `get_recent_messages` (lines 943-1003): a
valid `group:N` resolves to the stored room name (used to filter history),
a valid `contact:N` resolves to the stored phone; the session is never
written in this path, so it is returned unchanged from every branch. -/
def grmSelector (contact : List Char) (sess : Session) : GRMResult × Session :=
  let r := trimWS contact
  if groupPrefix.isPrefixOf (lowerStr r) then
    (match afterFirstColon r with
     | none => .errInvalidGroupFormat
     | some rest =>
       if trimWS rest = [] then .errInvalidGroupFormat
       else
         match parsePyInt (trimWS rest) with
         | none => .errGroupSelNotNumber
         | some n =>
           if n - 1 < 0 then .errGroupSelNotPositive
           else if sess.groups = [] then .errNoRecentGroups
           else if sess.groups.length ≤ (n - 1).toNat then
             .errGroupSelOutOfRange sess.groups.length
           else .roomFilter ((sess.groups.getD (n - 1).toNat default).roomName),
     sess)
  else if contactPrefix.isPrefixOf (lowerStr r) then
    (match afterFirstColon r with
     | none => .errInvalidContactFormat
     | some rest =>
       if trimWS rest = [] then .errInvalidContactFormat
       else
         match parsePyInt (trimWS rest) with
         | none => .errContactSelNotNumber
         | some n =>
           if n - 1 < 0 then .errContactSelNotPositive
           else if sess.contacts = [] then .errNoRecentContacts
           else if sess.contacts.length ≤ (n - 1).toNat then
             .errContactSelOutOfRange sess.contacts.length
           else .phoneFilter ((sess.contacts.getD (n - 1).toNat default).phone),
     sess)
  else (.notSelector, sess)

/-- The phone formats tried by `find_handle_by_phone` (lines 1656-1670):
the digits-only form, plus the complementary with/without-US-country-code
form when it applies; empty when no digits remain. -/
def phoneFormats (phone : List Char) : List (List Char) :=
  let n := normalize_phone_number phone
  if n = [] then []
  else n :: (if n.head? = some '1' ∧ 10 < n.length then [n.drop 1]
             else if n.length = 10 then ['1' :: n] else [])

/-- The formats tried by the AddressBook lookup of `get_contact_name`
(lines 878-892), which has no empty-input guard. -/
def lookupFormats (handleValue : List Char) : List (List Char) :=
  let n := normalize_phone_number handleValue
  n :: (if n.head? = some '1' ∧ 10 < n.length then [n.drop 1]
        else if n.length = 10 then ['1' :: n] else [])

/-- The AddressBook phone-matching of `get_contact_name` (lines 878-892):
direct hit on the normalized number, else the without-country-code variant
for a leading-1 number longer than 10 digits, else the with-country-code
variant for a 10-digit number. -/
def lookupByPhone (contacts : List (List Char × List Char))
    (handleValue : List Char) : Option (List Char) :=
  let n := normalize_phone_number handleValue
  match dictGet contacts n with
  | some name => some name
  | none =>
    if n.head? = some '1' ∧ 10 < n.length then dictGet contacts (n.drop 1)
    else if n.length = 10 then dictGet contacts ('1' :: n)
    else none

theorem trimRightWS_append (a b : List Char) :
    trimRightWS (a ++ b) =
      if trimRightWS b = [] then trimRightWS a else a ++ trimRightWS b := by
  induction a with
  | nil =>
    simp only [List.nil_append]
    split
    next h => rw [h]; rfl
    next h => rfl
  | cons c a2 ih =>
    by_cases hb : trimRightWS b = []
    · rw [if_pos hb]
      have hih : trimRightWS (a2 ++ b) = trimRightWS a2 := by
        rw [ih, if_pos hb]
      show trimRightWS (c :: (a2 ++ b)) = trimRightWS (c :: a2)
      simp only [trimRightWS, hih]
    · rw [if_neg hb]
      have hih : trimRightWS (a2 ++ b) = a2 ++ trimRightWS b := by
        rw [ih, if_neg hb]
      show trimRightWS (c :: (a2 ++ b)) = (c :: a2) ++ trimRightWS b
      simp only [trimRightWS, hih]
      cases htb : trimRightWS b with
      | nil => exact absurd htb hb
      | cons e t =>
        cases a2 with
        | nil => simp
        | cons x a3 => simp

theorem trimWS_selector_prefix (a rest : List Char) (hne : a ≠ [])
    (hhead : ∀ c, a.head? = some c → isSpaceChar c = false)
    (hlast : ∀ c, a.getLast? = some c → isSpaceChar c = false) :
    trimWS (a ++ rest) = a ++ trimRightWS rest := by
  unfold trimWS
  rw [trimRightWS_append]
  by_cases hb : trimRightWS rest = []
  · rw [if_pos hb, trimRightWS_eq_self a hlast, hb, List.append_nil]
    cases a with
    | nil => exact absurd rfl hne
    | cons c a2 =>
      unfold trimLeftWS
      rw [List.dropWhile_cons_of_neg (by simpa using hhead c rfl)]
  · rw [if_neg hb]
    cases a with
    | nil => exact absurd rfl hne
    | cons c a2 =>
      unfold trimLeftWS
      rw [List.cons_append, List.dropWhile_cons_of_neg (by simpa using hhead c rfl)]

theorem group_head_nonspace :
    ∀ c, groupPrefix.head? = some c → isSpaceChar c = false := by
  intro c h
  have h2 : 'g' = c := Option.some_inj.mp h
  rw [← h2]
  decide

theorem group_last_nonspace :
    ∀ c, groupPrefix.getLast? = some c → isSpaceChar c = false := by
  intro c h
  have h0 : groupPrefix.getLast? = some ':' := by decide
  rw [h0] at h
  have h2 : ':' = c := Option.some_inj.mp h
  rw [← h2]
  decide

theorem contact_head_nonspace :
    ∀ c, contactPrefix.head? = some c → isSpaceChar c = false := by
  intro c h
  have h2 : 'c' = c := Option.some_inj.mp h
  rw [← h2]
  decide

theorem contact_last_nonspace :
    ∀ c, contactPrefix.getLast? = some c → isSpaceChar c = false := by
  intro c h
  have h0 : contactPrefix.getLast? = some ':' := by decide
  rw [h0] at h
  have h2 : ':' = c := Option.some_inj.mp h
  rw [← h2]
  decide

theorem trimWS_group_prefix (rest : List Char) :
    trimWS (groupPrefix ++ rest) = groupPrefix ++ trimRightWS rest :=
  trimWS_selector_prefix _ rest (by decide) group_head_nonspace group_last_nonspace

theorem trimWS_contact_prefix (rest : List Char) :
    trimWS (contactPrefix ++ rest) = contactPrefix ++ trimRightWS rest :=
  trimWS_selector_prefix _ rest (by decide) contact_head_nonspace contact_last_nonspace

theorem lowerStr_group_prefix (x : List Char) :
    lowerStr (groupPrefix ++ x) = groupPrefix ++ lowerStr x := by
  unfold lowerStr
  rw [List.map_append]
  congr 1

theorem lowerStr_contact_prefix (x : List Char) :
    lowerStr (contactPrefix ++ x) = contactPrefix ++ lowerStr x := by
  unfold lowerStr
  rw [List.map_append]
  congr 1

theorem isPrefixOf_append_self (l y : List Char) : l.isPrefixOf (l ++ y) = true := by
  induction l with
  | nil => simp [List.isPrefixOf]
  | cons c t ih => simp [List.isPrefixOf, ih]

theorem group_not_prefix_of_contact (y : List Char) :
    groupPrefix.isPrefixOf (contactPrefix ++ y) = false := rfl

theorem afterFirstColon_group (y : List Char) :
    afterFirstColon (groupPrefix ++ y) = some y := rfl

theorem afterFirstColon_contact (y : List Char) :
    afterFirstColon (contactPrefix ++ y) = some y := rfl

theorem trimWS_trimRightWS (rest : List Char) :
    trimWS (trimRightWS rest) = trimWS rest := by
  unfold trimWS
  rw [trimRightWS_idem]

theorem parsePyInt_nonempty {rest : List Char} {n : ℤ}
    (hp : parsePyInt (trimWS rest) = some n) : trimWS rest ≠ [] := by
  intro h0
  rw [h0] at hp
  simp [parsePyInt, digitsVal] at hp

theorem send_message_contact_selector (rest : List Char) (n : ℤ) (mode : Option Bool)
    (sess : Session) (chats : List GChat) (gderr : Bool)
    (contacts : List (List Char × List Char × List Char)) (sendOk : List Char → Bool)
    (hmode : mode ≠ some true) (hp : parsePyInt (trimWS rest) = some n) (h1 : 1 ≤ n) :
    send_message (contactPrefix ++ rest) mode sess chats gderr contacts sendOk =
      (if sess.contacts = [] then (.errNoRecentContacts, sess)
       else if sess.contacts.length ≤ (n - 1).toNat then
         (.errContactSelOutOfRange sess.contacts.length, sess)
       else
         let c := sess.contacts.getD (n - 1).toNat default
         if sendOk c.phone then (.contactSelSent c, emptySession)
         else (.contactSelFailed c, sess)) := by
  have hne : trimWS rest ≠ [] := parsePyInt_nonempty hp
  have hnn : ¬ (n - 1 < 0) := by omega
  simp only [send_message, trimWS_contact_prefix, lowerStr_contact_prefix,
    group_not_prefix_of_contact, Bool.false_eq_true, if_false,
    isPrefixOf_append_self, if_true, hmode, afterFirstColon_contact,
    trimWS_trimRightWS, hne, hp, hnn]

theorem send_message_group_selector (rest : List Char) (n : ℤ) (mode : Option Bool)
    (sess : Session) (chats : List GChat) (gderr : Bool)
    (contacts : List (List Char × List Char × List Char)) (sendOk : List Char → Bool)
    (hmode : mode ≠ some false) (hp : parsePyInt (trimWS rest) = some n) (h1 : 1 ≤ n) :
    send_message (groupPrefix ++ rest) mode sess chats gderr contacts sendOk =
      (if sess.groups = [] then (.errNoRecentGroups, sess)
       else if sess.groups.length ≤ (n - 1).toNat then
         (.errGroupSelOutOfRange sess.groups.length, sess)
       else
         let g := sess.groups.getD (n - 1).toNat default
         if trySendGroup sendOk g then (.groupSelSent g, emptySession)
         else (.groupSelFailed g, sess)) := by
  have hne : trimWS rest ≠ [] := parsePyInt_nonempty hp
  have hnn : ¬ (n - 1 < 0) := by omega
  simp only [send_message, trimWS_group_prefix, lowerStr_group_prefix,
    isPrefixOf_append_self, if_true, if_false, hmode, afterFirstColon_group,
    trimWS_trimRightWS, hne, hp, hnn]

theorem grmSelector_contact (rest : List Char) (n : ℤ) (sess : Session)
    (hp : parsePyInt (trimWS rest) = some n) (h1 : 1 ≤ n) :
    grmSelector (contactPrefix ++ rest) sess =
      (if sess.contacts = [] then .errNoRecentContacts
       else if sess.contacts.length ≤ (n - 1).toNat then
         .errContactSelOutOfRange sess.contacts.length
       else .phoneFilter ((sess.contacts.getD (n - 1).toNat default).phone), sess) := by
  have hne : trimWS rest ≠ [] := parsePyInt_nonempty hp
  have hnn : ¬ (n - 1 < 0) := by omega
  simp only [grmSelector, trimWS_contact_prefix, lowerStr_contact_prefix,
    group_not_prefix_of_contact, Bool.false_eq_true, if_false,
    isPrefixOf_append_self, if_true, afterFirstColon_contact,
    trimWS_trimRightWS, hne, hp, hnn]

theorem grmSelector_group (rest : List Char) (n : ℤ) (sess : Session)
    (hp : parsePyInt (trimWS rest) = some n) (h1 : 1 ≤ n) :
    grmSelector (groupPrefix ++ rest) sess =
      (if sess.groups = [] then .errNoRecentGroups
       else if sess.groups.length ≤ (n - 1).toNat then
         .errGroupSelOutOfRange sess.groups.length
       else .roomFilter ((sess.groups.getD (n - 1).toNat default).roomName), sess) := by
  have hne : trimWS rest ≠ [] := parsePyInt_nonempty hp
  have hnn : ¬ (n - 1 < 0) := by omega
  simp only [grmSelector, trimWS_group_prefix, lowerStr_group_prefix,
    isPrefixOf_append_self, if_true, if_false, afterFirstColon_group,
    trimWS_trimRightWS, hne, hp, hnn]

/-- C7: a selector whose kind contradicts a forced mode fails with the mode
conflict error before the session is consulted: `group:...` under
contact-only mode and `contact:...` under group-only mode are rejected for
every session state and every selector suffix, including empty sessions and
out-of-range (or unparseable) indices, and the session is left untouched. -/
theorem c7_mode_conflict_before_session (rest : List Char) (sess : Session)
    (chats : List GChat) (gderr : Bool)
    (contacts : List (List Char × List Char × List Char)) (sendOk : List Char → Bool) :
    send_message (groupPrefix ++ rest) (some false) sess chats gderr contacts sendOk =
      (.errGroupSelContactMode, sess) ∧
    send_message (contactPrefix ++ rest) (some true) sess chats gderr contacts sendOk =
      (.errContactSelGroupMode, sess) := by
  constructor
  · simp only [send_message, trimWS_group_prefix, lowerStr_group_prefix,
      isPrefixOf_append_self, if_true]
  · simp only [send_message, trimWS_contact_prefix, lowerStr_contact_prefix,
      group_not_prefix_of_contact, Bool.false_eq_true, if_false,
      isPrefixOf_append_self, if_true]

/-- C3: for a selector call with a valid index against a non-empty session
slot, the selected entry is returned, and both session lists are cleared
exactly when the downstream send succeeds — a failed send leaves the
session intact for a retry; the history-lookup slot (`get_recent_messages`)
returns the selected entry's filter value and never touches its session. -/
theorem c3_selector_clears_iff_send_succeeds (rest : List Char) (n : ℤ)
    (sess : Session) (chats : List GChat) (gderr : Bool)
    (contacts : List (List Char × List Char × List Char)) (sendOk : List Char → Bool)
    (hp : parsePyInt (trimWS rest) = some n) (h1 : 1 ≤ n)
    (hc : n.toNat ≤ sess.contacts.length) (hg : n.toNat ≤ sess.groups.length) :
    (send_message (contactPrefix ++ rest) none sess chats gderr contacts sendOk =
      (let c := sess.contacts.getD (n - 1).toNat default
       if sendOk c.phone then (.contactSelSent c, emptySession)
       else (.contactSelFailed c, sess))) ∧
    (send_message (groupPrefix ++ rest) none sess chats gderr contacts sendOk =
      (let g := sess.groups.getD (n - 1).toNat default
       if trySendGroup sendOk g then (.groupSelSent g, emptySession)
       else (.groupSelFailed g, sess))) ∧
    grmSelector (contactPrefix ++ rest) sess =
      (.phoneFilter ((sess.contacts.getD (n - 1).toNat default).phone), sess) ∧
    grmSelector (groupPrefix ++ rest) sess =
      (.roomFilter ((sess.groups.getD (n - 1).toNat default).roomName), sess) := by
  have hcne : sess.contacts ≠ [] := by
    intro h0
    rw [h0] at hc
    simp at hc
    omega
  have hgne : sess.groups ≠ [] := by
    intro h0
    rw [h0] at hg
    simp at hg
    omega
  have hcb : ¬ (sess.contacts.length ≤ (n - 1).toNat) := by omega
  have hgb : ¬ (sess.groups.length ≤ (n - 1).toNat) := by omega
  refine ⟨?_, ?_, ?_, ?_⟩
  · rw [send_message_contact_selector rest n none sess chats gderr contacts sendOk
      (by simp) hp h1, if_neg hcne, if_neg hcb]
  · rw [send_message_group_selector rest n none sess chats gderr contacts sendOk
      (by simp) hp h1, if_neg hgne, if_neg hgb]
  · rw [grmSelector_contact rest n sess hp h1, if_neg hcne, if_neg hcb]
  · rw [grmSelector_group rest n sess hp h1, if_neg hgne, if_neg hgb]

/-- C2: the outcome combination of a name search: no matches anywhere is
the not-found error; exactly one match total resolves that match and clears
the session; every other outcome is ambiguous, displaying at most 10
entries per list — at most 5 per list when both lists are non-empty — and
stores the full match lists into the session. -/
theorem c2_outcome_combination (gm : List GEntry) (cm : List CEntry)
    (sendOk : List Char → Bool) (sess : Session) :
    (gm = [] ∧ cm = [] → combineMatches gm cm sendOk sess = (.notFound, sess)) ∧
    (gm.length = 1 ∧ cm = [] →
      combineMatches gm cm sendOk sess =
        (.singleGroupSent (gm.getD 0 default) (trySendGroup sendOk (gm.getD 0 default)),
         emptySession)) ∧
    (cm.length = 1 ∧ gm = [] →
      combineMatches gm cm sendOk sess =
        (.singleContactSent (cm.getD 0 default) (sendOk (cm.getD 0 default).phone),
         emptySession)) ∧
    (gm ≠ [] ∧ cm ≠ [] →
      combineMatches gm cm sendOk sess =
        (.ambiguousBoth (gm.take 5) (cm.take 5), ⟨cm, gm⟩) ∧
      (gm.take 5).length ≤ 5 ∧ (cm.take 5).length ≤ 5) ∧
    (2 ≤ gm.length ∧ cm = [] →
      combineMatches gm cm sendOk sess =
        (.ambiguousGroups (gm.take 10), ⟨cm, gm⟩) ∧ (gm.take 10).length ≤ 10) ∧
    (2 ≤ cm.length ∧ gm = [] →
      combineMatches gm cm sendOk sess =
        (.ambiguousContacts (cm.take 10), ⟨cm, gm⟩) ∧ (cm.take 10).length ≤ 10) := by
  refine ⟨?_, ?_, ?_, ?_, ?_, ?_⟩
  · rintro ⟨h1, h2⟩
    simp [combineMatches, h1, h2]
  · rintro ⟨h1, h2⟩
    have hgne : gm ≠ [] := by
      intro h0
      rw [h0] at h1
      simp at h1
    simp [combineMatches, hgne, h1, h2]
  · rintro ⟨h1, h2⟩
    have hcne : cm ≠ [] := by
      intro h0
      rw [h0] at h1
      simp at h1
    simp [combineMatches, hcne, h1, h2]
  · rintro ⟨h1, h2⟩
    refine ⟨by simp [combineMatches, h1, h2], ?_, ?_⟩ <;> simp
  · rintro ⟨h1, h2⟩
    have hgne : gm ≠ [] := by
      intro h0
      rw [h0] at h1
      simp at h1
    have hg1 : gm.length ≠ 1 := by omega
    refine ⟨by simp [combineMatches, hgne, hg1, h2], by simp⟩
  · rintro ⟨h1, h2⟩
    have hcne : cm ≠ [] := by
      intro h0
      rw [h0] at h1
      simp at h1
    have hc1 : cm.length ≠ 1 := by omega
    refine ⟨by simp [combineMatches, hcne, hc1, h2], by simp⟩

/-- C10: an ambiguous search stores the full deduplicated lists in the
session, not the display-capped prefixes: after a both-lists report (which
displays at most 5 per list), a selector index beyond the display cap but
within the full stored list still resolves, and an out-of-range selector
reports the full list length as the bound. -/
theorem c10_session_stores_full_lists (gm : List GEntry) (cm : List CEntry)
    (sendOk sendOk2 : List Char → Bool) (sess : Session) (rest : List Char) (n : ℤ)
    (chats : List GChat) (gderr : Bool)
    (contacts : List (List Char × List Char × List Char))
    (hg : gm ≠ []) (hc : cm ≠ [])
    (hp : parsePyInt (trimWS rest) = some n) (h1 : 1 ≤ n) :
    (combineMatches gm cm sendOk sess).2 = ⟨cm, gm⟩ ∧
    (combineMatches gm cm sendOk sess).1 =
      .ambiguousBoth (gm.take 5) (cm.take 5) ∧
    (n.toNat ≤ cm.length →
      send_message (contactPrefix ++ rest) none ⟨cm, gm⟩ chats gderr contacts sendOk2 =
        (let c := cm.getD (n - 1).toNat default
         if sendOk2 c.phone then (.contactSelSent c, emptySession)
         else (.contactSelFailed c, ⟨cm, gm⟩))) ∧
    (cm.length < n.toNat →
      send_message (contactPrefix ++ rest) none ⟨cm, gm⟩ chats gderr contacts sendOk2 =
        (.errContactSelOutOfRange cm.length, ⟨cm, gm⟩)) := by
  have hcomb : combineMatches gm cm sendOk sess =
      (.ambiguousBoth (gm.take 5) (cm.take 5), ⟨cm, gm⟩) := by
    simp [combineMatches, hg, hc]
  refine ⟨by rw [hcomb], by rw [hcomb], ?_, ?_⟩
  · intro hin
    rw [send_message_contact_selector rest n none ⟨cm, gm⟩ chats gderr contacts sendOk2
      (by simp) hp h1]
    have hcne : (⟨cm, gm⟩ : Session).contacts ≠ [] := hc
    have hcb : ¬ ((⟨cm, gm⟩ : Session).contacts.length ≤ (n - 1).toNat) := by
      show ¬ (cm.length ≤ (n - 1).toNat)
      omega
    rw [if_neg hcne, if_neg hcb]
  · intro hout
    rw [send_message_contact_selector rest n none ⟨cm, gm⟩ chats gderr contacts sendOk2
      (by simp) hp h1]
    have hcne : (⟨cm, gm⟩ : Session).contacts ≠ [] := hc
    have hcb : (⟨cm, gm⟩ : Session).contacts.length ≤ (n - 1).toNat := by
      show cm.length ≤ (n - 1).toNat
      omega
    rw [if_neg hcne, if_pos hcb]

/-- C9: phone-number resolution tries the digits-only normalized form plus,
for US-looking numbers (leading "1" and more than 10 digits, or exactly 10
digits), the complementary with/without-country-code variant: the
AddressBook lookup succeeds exactly when one of the tried formats is a
stored key, and a candidate stored as "14155550100" is found by the queries
"4155550100", "+1 (415) 555-0100" and "415-555-0100". -/
theorem c9_phone_variants :
    (∀ (contacts : List (List Char × List Char)) (q : List Char),
      (lookupByPhone contacts q).isSome = true ↔
        ∃ f ∈ lookupFormats q, (dictGet contacts f).isSome = true) ∧
    ("14155550100".data ∈ phoneFormats ("4155550100".data)) ∧
    ("14155550100".data ∈ phoneFormats ("+1 (415) 555-0100".data)) ∧
    ("14155550100".data ∈ phoneFormats ("415-555-0100".data)) ∧
    (∀ nm : List Char,
      lookupByPhone [("14155550100".data, nm)] ("4155550100".data) = some nm ∧
      lookupByPhone [("14155550100".data, nm)] ("+1 (415) 555-0100".data) = some nm ∧
      lookupByPhone [("14155550100".data, nm)] ("415-555-0100".data) = some nm) := by
  refine ⟨?_, by decide, by decide, by decide, fun nm => ⟨rfl, rfl, rfl⟩⟩
  intro contacts q
  unfold lookupByPhone lookupFormats
  rcases hd : dictGet contacts (normalize_phone_number q) with _ | v
  · by_cases h1 : (normalize_phone_number q).head? = some '1' ∧
        10 < (normalize_phone_number q).length
    · simp only [hd, if_pos h1]
      constructor
      · intro hs
        exact ⟨(normalize_phone_number q).drop 1, by simp, hs⟩
      · rintro ⟨f, hf, hfs⟩
        rcases List.mem_cons.mp hf with rfl | hf2
        · rw [hd] at hfs
          simp at hfs
        · rcases List.mem_singleton.mp hf2 with rfl
          exact hfs
    · by_cases h2 : (normalize_phone_number q).length = 10
      · simp only [hd, if_neg h1, if_pos h2]
        constructor
        · intro hs
          exact ⟨'1' :: normalize_phone_number q, by simp, hs⟩
        · rintro ⟨f, hf, hfs⟩
          rcases List.mem_cons.mp hf with rfl | hf2
          · rw [hd] at hfs
            simp at hfs
          · rcases List.mem_singleton.mp hf2 with rfl
            exact hfs
      · simp only [hd, if_neg h1, if_neg h2]
        constructor
        · intro hs
          simp at hs
        · rintro ⟨f, hf, hfs⟩
          rcases List.mem_singleton.mp hf with rfl
          rw [hd] at hfs
          simp at hfs
  · simp only [hd]
    constructor
    · intro _
      exact ⟨normalize_phone_number q, List.mem_cons_self _ _, by rw [hd]; rfl⟩
    · intro _
      rfl

/-- Witness for C2: no matches gives not-found; 6 groups and 7 contacts
give the both-lists ambiguous report displaying 5 per list while the
session stores all 13 matches. -/
theorem c2_witness :
    combineMatches [] [] (fun _ => true) emptySession = (.notFound, emptySession) ∧
    combineMatches (List.replicate 6 (default : GEntry))
        (List.replicate 7 (default : CEntry)) (fun _ => true) emptySession =
      (.ambiguousBoth ((List.replicate 6 (default : GEntry)).take 5)
         ((List.replicate 7 (default : CEntry)).take 5),
       ⟨List.replicate 7 default, List.replicate 6 default⟩) :=
  ⟨(c2_outcome_combination [] [] (fun _ => true) emptySession).1 ⟨rfl, rfl⟩,
   ((c2_outcome_combination (List.replicate 6 default) (List.replicate 7 default)
      (fun _ => true) emptySession).2.2.2.1 ⟨by decide, by decide⟩).1⟩

/-- Witness for C3: selecting `contact:7` from a 7-entry session with a
succeeding send returns the entry and clears the session. -/
theorem c3_witness :
    send_message (contactPrefix ++ "7".data) none
        ⟨List.replicate 7 default, List.replicate 7 default⟩ [] false []
        (fun _ => true) =
      (.contactSelSent default, emptySession) := by
  rw [(c3_selector_clears_iff_send_succeeds ("7".data) 7
    ⟨List.replicate 7 default, List.replicate 7 default⟩ [] false [] (fun _ => true)
    (by decide) (by decide) (by decide) (by decide)).1]
  decide

/-- Witness for C10: with 6 groups and 7 contacts stored, selector index 7
(beyond the display cap 5) still resolves, and index 8 reports the full
bound 7. -/
theorem c10_witness :
    (combineMatches (List.replicate 6 (default : GEntry))
        (List.replicate 7 (default : CEntry)) (fun _ => true) emptySession).2 =
      ⟨List.replicate 7 default, List.replicate 6 default⟩ ∧
    send_message (contactPrefix ++ "7".data) none
        ⟨List.replicate 7 default, List.replicate 6 default⟩ [] false []
        (fun _ => true) =
      (.contactSelSent default, emptySession) ∧
    send_message (contactPrefix ++ "8".data) none
        ⟨List.replicate 7 default, List.replicate 6 default⟩ [] false []
        (fun _ => true) =
      (.errContactSelOutOfRange 7,
       ⟨List.replicate 7 default, List.replicate 6 default⟩) := by
  refine ⟨(c10_session_stores_full_lists (List.replicate 6 default)
    (List.replicate 7 default) (fun _ => true) (fun _ => true) emptySession
    ("7".data) 7 [] false [] (by decide) (by decide) (by decide) (by decide)).1,
    ?_, ?_⟩
  · rw [(c10_session_stores_full_lists (List.replicate 6 default)
      (List.replicate 7 default) (fun _ => true) (fun _ => true) emptySession
      ("7".data) 7 [] false [] (by decide) (by decide) (by decide) (by decide)).2.2.1
      (by decide)]
    decide
  · rw [(c10_session_stores_full_lists (List.replicate 6 default)
      (List.replicate 7 default) (fun _ => true) (fun _ => true) emptySession
      ("8".data) 8 [] false [] (by decide) (by decide) (by decide) (by decide)).2.2.2
      (by decide)]
    decide
